import Mathlib

/-!
Verification development for the repository-synchronization, local-cache and
relevance-search subsystem of `agentic-support`.

The TypeScript sources are shallowly embedded as Lean definitions:

* `src/lib/github-db.ts` — cache-store record types, the Dexie table
  operations used by the sync orchestrators, and `buildFileTree`;
* `src/lib/github-issues-sync.ts` (second unit of
  `src/components/monaco-diff-editor.tsx`) — `syncRepositoryIssues`,
  `fetchIssuesWithPagination`, `convertToDBIssue`;
* `src/lib/github-sync.ts` (third unit of the same file) — `syncRepository`
  and its path helpers;
* `src/lib/integrations.ts` (`part_009`) — `GitHubService.getIssues` and
  `GitHubService.getFileContent`;
* `src/lib/server-code-context-service.ts` — term extraction, relevance
  scoring, windowing, ranking and confidence;
* `src/lib/issue-analysis.ts` (`part_011`) — `IssueAnalysisService.calculateConfidence`.

Modelling conventions: JavaScript `Date` values are carried as opaque
strings, numbers that are always integral in the executions under study are
`Nat`, fractional score arithmetic is `ℚ` (exact decimal model of the float
literals), provider calls are oracles passed as function arguments, and
thrown exceptions are `Except`/`Option` results.
-/

namespace AgenticSupport

/-! ## Data model (github-db.ts, types.ts) -/

/-- `'file' | 'dir'` of `GitHubFile.type`. -/
inductive FileType
  | file
  | dir
deriving DecidableEq

/-- `'open' | 'closed'` issue state (`open` is a Lean keyword, hence `opened`). -/
inductive IssueState
  | opened
  | closed
deriving DecidableEq

/-- `'pending' | 'syncing' | 'completed' | 'error'` of `GitHubRepo.syncStatus`. -/
inductive SyncStatus
  | pending
  | syncing
  | completed
  | error
deriving DecidableEq

/-- `GitHubFile` record of `github-db.ts` (the auto-increment `id` column is
not part of the model; identity is `(repoId, path)`). -/
structure GitHubFile where
  repoId : String
  path : String
  name : String
  type : FileType
  sha : String
  size : Option Nat
  downloadUrl : Option String
  content : Option String
  parentPath : String
  lastSynced : String
deriving DecidableEq

/-- `GitHubRepo` record of `github-db.ts`. -/
structure GitHubRepo where
  id : String
  name : String
  fullName : String
  defaultBranch : String
  lastSynced : String
  totalFiles : Nat
  syncStatus : SyncStatus
deriving DecidableEq

/-- Label shape used by the provider-side `GitHubIssue` of `types.ts`. -/
structure IssueLabel where
  name : String
  color : String
deriving DecidableEq

/-- Provider-side `GitHubIssue` of `types.ts`. -/
structure GitHubIssue where
  id : Nat
  number : Nat
  title : String
  body : Option String
  state : IssueState
  html_url : String
  created_at : String
  updated_at : String
  labels : List IssueLabel
deriving DecidableEq

/-- Label record stored on `GitHubIssueDB`. -/
structure IssueLabelRecord where
  name : String
  color : String
  description : Option String
deriving DecidableEq

/-- Milestone record stored on `GitHubIssueDB`. -/
structure IssueMilestone where
  title : String
  description : Option String
  dueOn : Option String
deriving DecidableEq

/-- `GitHubIssueDB` record of `github-db.ts` (auto-increment `id` column
omitted; identity is `(repoId, issueId)`). -/
structure GitHubIssueDB where
  issueId : Nat
  repoId : String
  number : Nat
  title : String
  body : Option String
  state : IssueState
  htmlUrl : String
  createdAt : String
  updatedAt : String
  closedAt : Option String
  authorLogin : String
  authorAvatarUrl : String
  assignees : List String
  labels : List IssueLabelRecord
  milestone : Option IssueMilestone
  comments : Nat
  lastSynced : String
deriving DecidableEq

/-- `GitHubRepository` of `types.ts` (provider-side repository). -/
structure GitHubRepository where
  id : Nat
  name : String
  full_name : String
  description : Option String
  html_url : String
  clone_url : String
  default_branch : String
deriving DecidableEq

/-- `GitHubTreeItem` of `types.ts`. -/
inductive TreeItemType
  | blob
  | tree
deriving DecidableEq

/-- One entry of the recursive tree listing returned by the provider. -/
structure GitHubTreeItem where
  path : String
  mode : String
  type : TreeItemType
  sha : String
  size : Option Nat
  url : String
deriving DecidableEq

/-! ## Cache store (Dexie `GitHubDatabase` of github-db.ts)

The three tables are modelled as lists; only the operations the sync
orchestrators use are embedded. -/

/-- The persisted state of the `GitHubDatabase` Dexie database. -/
structure GitHubDatabase where
  repos : List GitHubRepo
  files : List GitHubFile
  issues : List GitHubIssueDB
deriving DecidableEq

/-- `saveRepo`: `this.repos.put(repo)` — upsert by primary key `id`. -/
def GitHubDatabase.saveRepo (db : GitHubDatabase) (repo : GitHubRepo) : GitHubDatabase :=
  if db.repos.any (fun r => r.id == repo.id) then
    { db with repos := db.repos.map (fun r => if r.id == repo.id then repo else r) }
  else
    { db with repos := db.repos ++ [repo] }

/-- `saveFiles`: delete all files of the repository, then bulk-add the new list. -/
def GitHubDatabase.saveFiles (db : GitHubDatabase) (repoId : String)
    (files : List GitHubFile) : GitHubDatabase :=
  { db with files := db.files.filter (fun f => f.repoId != repoId) ++ files }

/-- `saveIssues`: delete all issues of the repository, then bulk-add the new
list.  The delete is scoped to the repository, not to an issue state. -/
def GitHubDatabase.saveIssues (db : GitHubDatabase) (repoId : String)
    (issues : List GitHubIssueDB) : GitHubDatabase :=
  { db with issues := db.issues.filter (fun i => i.repoId != repoId) ++ issues }

/-- `updateRepoSyncStatus`: patch status / lastSynced (and totalFiles when
given) of the repository record, if present. -/
def GitHubDatabase.updateRepoSyncStatus (db : GitHubDatabase) (repoId : String)
    (status : SyncStatus) (totalFiles : Option Nat) (now : String) : GitHubDatabase :=
  { db with repos := db.repos.map (fun r =>
      if r.id == repoId then
        { r with syncStatus := status, lastSynced := now,
                 totalFiles := totalFiles.getD r.totalFiles }
      else r) }

/-- `getRepoSyncStatus`: point read of the repository record. -/
def GitHubDatabase.getRepoSyncStatus (db : GitHubDatabase) (repoId : String) :
    Option GitHubRepo :=
  db.repos.find? (fun r => r.id == repoId)

/-! ## Provider client (`GitHubService` of integrations.ts / part_009) -/

/-- `GitHubService.getIssues(owner, repo, state)`: a single
`octokit.rest.issues.listForRepo` call with `per_page: 50` and **no `page`
parameter** (octokit then requests the first page).  The `remote` oracle
stands for the full issue list the hosting API would serve per state; the
call therefore returns its first 50 entries, on every invocation. -/
def GitHubService.getIssues (remote : IssueState → List GitHubIssue)
    (state : IssueState) : List GitHubIssue :=
  (remote state).take 50

/-! ## Issue sync orchestrator (`GitHubIssuesSyncService`) -/

/-- The parameters of one underlying `listForRepo` HTTP request issued from
the pagination loop.  `perPageParam` is the `per_page` sent (50, fixed in
`GitHubService.getIssues`); `pageParam` is the page number the request
carries — the loop never passes one, so octokit's default of 1 is sent on
every iteration. -/
structure PageRequest where
  state : IssueState
  perPageParam : Nat
  pageParam : Nat
deriving DecidableEq

/-- Result of `fetchIssuesWithPagination`, instrumented with the number of
loop iterations executed and the trace of provider requests issued. -/
structure FetchPagesResult where
  issues : List GitHubIssue
  iterations : Nat
  requests : List PageRequest
deriving DecidableEq

/-- The `while (issues.length < maxIssues)` loop of
`fetchIssuesWithPagination`.  `getPage n` is the provider response to the
call made on iteration `n` (`none` models the call throwing, which the
`catch` turns into `break`).  Each iteration appends
`pageIssues.slice(0, maxIssues - issues.length)` and stops on an empty page,
an error, a page shorter than `perPage`, or a full budget.  The budgets are
`Nat` here: this is the loop restricted to whole-number `maxIssues`, which
covers every concrete run below (the `maxIssues / 2` of the call sites is
integral there); `fetchLoopJS` below models the general JS-number budget,
on which the loop can diverge. -/
def fetchLoop (getPage : Nat → Option (List GitHubIssue)) (state : IssueState)
    (maxIssues perPage : Nat) (acc : List GitHubIssue) (iter : Nat)
    (reqs : List PageRequest) : FetchPagesResult :=
  if _h : acc.length < maxIssues then
    let reqs' := reqs ++ [⟨state, 50, 1⟩]
    match getPage iter with
    | none => ⟨acc, iter + 1, reqs'⟩
    | some pageIssues =>
      if pageIssues.length = 0 then ⟨acc, iter + 1, reqs'⟩
      else
        let acc' := acc ++ pageIssues.take (maxIssues - acc.length)
        if pageIssues.length < perPage then ⟨acc', iter + 1, reqs'⟩
        else fetchLoop getPage state maxIssues perPage acc' (iter + 1) reqs'
  else ⟨acc, iter, reqs⟩
termination_by maxIssues - acc.length
decreasing_by
  simp only [List.length_append, List.length_take]
  omega

/-- `fetchIssuesWithPagination(owner, repo, state, maxIssues, progress)`:
`perPage = Math.min(100, maxIssues)`, then the loop above starting from an
empty accumulator (whole-number budget; `fetchIssuesWithPaginationJS` below
is the general JS-number case). -/
def fetchIssuesWithPagination (getPage : Nat → Option (List GitHubIssue))
    (state : IssueState) (maxIssues : Nat) : FetchPagesResult :=
  fetchLoop getPage state maxIssues (min 100 maxIssues) [] 0 []

/-- JS `ToIntegerOrInfinity` on a finite number: truncation toward zero. -/
def jsToInt (q : ℚ) : Int :=
  if q < 0 then -⌊-q⌋ else ⌊q⌋

/-- `l.slice(0, e)` with a JS-number end argument `e`: the end index is
truncated toward zero, a negative end counts back from the end of the
array, and the result is clamped to the array (`take` clamps the
non-negative case). -/
def jsSliceFrom0 {α : Type} (l : List α) (e : ℚ) : List α :=
  if jsToInt e < 0 then l.take (max ((l.length : Int) + jsToInt e) 0).toNat
  else l.take (jsToInt e).toNat

/-- The same `while` loop over JS-number budgets: `maxIssues` is a `number`
in the source, and the call sites in `syncRepositoryIssues` pass
`maxIssues / 2`, which is fractional for odd option values.  The guard
`issues.length < maxIssues`, the page-size check
`pageIssues.length < perPage` and the slice end `maxIssues - issues.length`
are exact rational comparisons/arithmetic, and `slice` truncates its end
argument (`jsSliceFrom0`).  `fuel` is an explicit step allowance: `none`
means the loop is still running after `fuel` iterations, so genuine
divergence of the source loop is `∀ fuel, … = none`. -/
def fetchLoopJS (getPage : Nat → Option (List GitHubIssue)) (state : IssueState)
    (maxIssues perPage : ℚ) : Nat → List GitHubIssue → Nat → List PageRequest →
      Option FetchPagesResult
  | 0, _, _, _ => none
  | fuel + 1, acc, iter, reqs =>
    if ((acc.length : ℚ)) < maxIssues then
      match getPage iter with
      | none => some ⟨acc, iter + 1, reqs ++ [⟨state, 50, 1⟩]⟩
      | some pageIssues =>
        if pageIssues.length = 0 then some ⟨acc, iter + 1, reqs ++ [⟨state, 50, 1⟩]⟩
        else
          if ((pageIssues.length : ℚ)) < perPage then
            some ⟨acc ++ jsSliceFrom0 pageIssues (maxIssues - (acc.length : ℚ)),
              iter + 1, reqs ++ [⟨state, 50, 1⟩]⟩
          else
            fetchLoopJS getPage state maxIssues perPage fuel
              (acc ++ jsSliceFrom0 pageIssues (maxIssues - (acc.length : ℚ)))
              (iter + 1) (reqs ++ [⟨state, 50, 1⟩])
    else some ⟨acc, iter, reqs⟩

/-- `fetchIssuesWithPagination` over a JS-number budget:
`perPage = Math.min(100, maxIssues)`, then the loop from an empty
accumulator, with a step allowance. -/
def fetchIssuesWithPaginationJS (getPage : Nat → Option (List GitHubIssue))
    (state : IssueState) (maxIssues : ℚ) (fuel : Nat) : Option FetchPagesResult :=
  fetchLoopJS getPage state maxIssues (min 100 maxIssues) fuel [] 0 []

/-- `convertToDBIssue`: list-endpoint fields are copied, fields the list
endpoint does not return are left at the literal defaults of the source
(`closedAt: null`, empty author, no assignees, `milestone: null`,
`comments: 0`). -/
def convertToDBIssue (issue : GitHubIssue) (repoId : String) (now : String) :
    GitHubIssueDB where
  issueId := issue.id
  repoId := repoId
  number := issue.number
  title := issue.title
  body := issue.body
  state := issue.state
  htmlUrl := issue.html_url
  createdAt := issue.created_at
  updatedAt := issue.updated_at
  closedAt := none
  authorLogin := ""
  authorAvatarUrl := ""
  assignees := []
  labels := issue.labels.map (fun l => ⟨l.name, l.color, none⟩)
  milestone := none
  comments := 0
  lastSynced := now

/-- Options record of `syncRepositoryIssues` with the source's defaults. -/
structure SyncIssuesOptions where
  syncOpen : Bool := true
  syncClosed : Bool := false
  maxIssues : Nat := 100
deriving DecidableEq

/-- `syncRepositoryIssues(repo, options)`: fetch open issues with budget
`maxIssues / (syncClosed ? 2 : 1)` when `syncOpen`, closed issues with
budget `maxIssues / 2` when `syncClosed`, convert, and persist the combined
list with `githubDB.saveIssues(repoId, allIssues)`.  Each pagination run
calls `GitHubService.getIssues` afresh on every iteration (no page
argument), which is reflected by a constant page oracle.  The source's
`maxIssues / 2` is JS float division; the `Nat` division here coincides
with it exactly on even `maxIssues`, as in every concrete run below — the
odd values, whose fractional budgets make the loop diverge, are studied
with `fetchLoopJS`. -/
def syncRepositoryIssues (remote : IssueState → List GitHubIssue)
    (repo : GitHubRepository) (options : SyncIssuesOptions)
    (db : GitHubDatabase) (now : String) : GitHubDatabase :=
  let repoId := toString repo.id
  let openIssues :=
    if options.syncOpen then
      (fetchIssuesWithPagination
        (fun _ => some (GitHubService.getIssues remote .opened)) .opened
        (options.maxIssues / (if options.syncClosed then 2 else 1))).issues
    else []
  let closedIssues :=
    if options.syncClosed then
      (fetchIssuesWithPagination
        (fun _ => some (GitHubService.getIssues remote .closed)) .closed
        (options.maxIssues / 2)).issues
    else []
  let allIssues := openIssues.map (fun i => convertToDBIssue i repoId now) ++
    closedIssues.map (fun i => convertToDBIssue i repoId now)
  db.saveIssues repoId allIssues

/-! ## File sync orchestrator (`GitHubSyncService`) -/

/-- Status carried by a `SyncProgress` event (`'syncing' | 'completed' | 'error'`). -/
inductive ProgressStatus
  | syncing
  | completed
  | error
deriving DecidableEq

/-- `SyncProgress` event emitted by `syncRepository`. -/
structure SyncProgress where
  total : Nat
  completed : Nat
  currentFile : String
  status : ProgressStatus
  error : Option String
deriving DecidableEq

/-- `getFileName`: last `'/'`-separated segment of a path. -/
def getFileName (path : String) : String :=
  let parts := path.splitOn "/"
  parts.getLastD ""

/-- `getParentPath`: the path with its last segment removed; `""` for a
root-level path. -/
def getParentPath (path : String) : String :=
  let parts := path.splitOn "/"
  if parts.length ≤ 1 then "" else String.intercalate "/" parts.dropLast

/-- `syncRepository(repo)`.  `fetchTree` is the outcome of
`githubService.getRepositoryTree` (`.error` covers both a thrown fetch error
and the `if (!tree) throw` null-guard).  Returns the propagated result, the
updated database, and the emitted `SyncProgress` event list. -/
def syncRepository (fetchTree : Except String (List GitHubTreeItem))
    (repo : GitHubRepository) (db : GitHubDatabase) (now : String) :
    Except String Unit × GitHubDatabase × List SyncProgress :=
  let repoId := toString repo.id
  let db1 := db.saveRepo
    ⟨repoId, repo.name, repo.full_name, repo.default_branch, now, 0, .syncing⟩
  match fetchTree with
  | .error e =>
    let db2 := db1.updateRepoSyncStatus repoId .error none now
    (.error e, db2, [⟨0, 0, "", .error, some e⟩])
  | .ok tree =>
    let total := tree.length
    let step := fun (acc : List GitHubFile × List SyncProgress) (item : GitHubTreeItem) =>
      let f : GitHubFile :=
        ⟨repoId, item.path, getFileName item.path,
         (if item.type = .tree then .dir else .file), item.sha, item.size,
         (if item.type = .blob then some item.url else none), none,
         getParentPath item.path, now⟩
      (acc.1 ++ [f], acc.2 ++ [⟨total, acc.1.length + 1, item.path, .syncing, none⟩])
    let processed := tree.foldl step ([], [])
    let files := processed.1
    let db2 := db1.saveFiles repoId files
    let db3 := db2.updateRepoSyncStatus repoId .completed (some files.length) now
    (.ok (), db3,
      ⟨total, 0, "Starting sync...", .syncing, none⟩ :: processed.2 ++
        [⟨total, total, "Sync completed!", .completed, none⟩])

/-! ## `GitHubService.getFileContent` (integrations.ts / part_009)

The octokit `repos.getContent` call is an oracle from the ref actually
passed to an HTTP outcome; `repos.get` (for the default branch) is an
`Except`.  The embedding also returns the trace of refs attempted, in
order. -/

/-- Outcome of one `octokit.rest.repos.getContent` call.  `success none`
models a response without a usable `content` field. -/
inductive HttpContentResult
  | success (content : Option String)
  | notFound
  | otherError (msg : String)
deriving DecidableEq

/-- A thrown JavaScript error, with its `status === 404` flag. -/
structure ThrownError where
  msg : String
  isNotFound : Bool
deriving DecidableEq

/-- Result of the inner `fetchContent` helper: file text, `null` (404 under a
specific ref, to be retried), or a propagated throw. -/
inductive FetchContentOutcome
  | content (c : String)
  | nullResult
  | thrown (e : ThrownError)
deriving DecidableEq

/-- JavaScript truthiness of the optional ref string (`undefined` and `""`
are falsy). -/
def refTruthy : Option String → Bool
  | none => false
  | some s => s != ""

/-- The inner `fetchContent` closure of `getFileContent`: decode `content`
when present, throw `'File content not found'` when absent, turn a 404 into
`null` when a ref was supplied, and rethrow anything else. -/
def fetchContent (getContent : Option String → HttpContentResult)
    (ref : Option String) : FetchContentOutcome :=
  match getContent ref with
  | .success (some c) => .content c
  | .success none => .thrown ⟨"File content not found", false⟩
  | .notFound =>
    if refTruthy ref then .nullResult else .thrown ⟨"Not Found", true⟩
  | .otherError m => .thrown ⟨m, false⟩

/-- The outer `catch` of `getFileContent`: a 404-status error becomes the
`File not found at path` message, anything else the generic wrapper. -/
def getFileContentCatch (e : ThrownError) (path : String)
    (refToUse : Option String) : String :=
  if e.isNotFound then
    "File not found at path: " ++ path ++
      (if refTruthy refToUse then " (ref: " ++ refToUse.getD "" ++ ")" else "")
  else
    "Failed to fetch file content: " ++ e.msg

/-- `GitHubService.getFileContent`, after argument disambiguation has fixed
`owner`, `repo`, `path` and `refToUse`: try the supplied ref when truthy;
on a `null` (not-found under that ref), read the repository's default
branch via `repos.get` and try once more; a second miss raises
`'File not found in the repository'` which the outer catch wraps.  Returns
the result together with the refs attempted. -/
def getFileContent (getContent : Option String → HttpContentResult)
    (repoGet : Except ThrownError String) (refToUse : Option String)
    (path : String) : Except String String × List (Option String) :=
  let afterFirst : Option FetchContentOutcome × List (Option String) :=
    if refTruthy refToUse then (some (fetchContent getContent refToUse), [refToUse])
    else (none, [])
  match afterFirst.1 with
  | some (.content c) => (.ok c, afterFirst.2)
  | some (.thrown e) => (.error (getFileContentCatch e path refToUse), afterFirst.2)
  | _ =>
    match repoGet with
    | .error e => (.error (getFileContentCatch e path refToUse), afterFirst.2)
    | .ok defaultBranch =>
      let attempts := afterFirst.2 ++ [some defaultBranch]
      match fetchContent getContent (some defaultBranch) with
      | .content c => (.ok c, attempts)
      | .thrown e => (.error (getFileContentCatch e path refToUse), attempts)
      | .nullResult =>
        (.error (getFileContentCatch ⟨"File not found in the repository", false⟩
          path refToUse), attempts)

/-! ## Relevance search engine (server-code-context-service.ts)

The filesystem walk (`getAllCodeFiles` + `fs.readFile`) is IO; the corpus —
each kept file with the content read for it — is therefore an input of the
embedded search.  All scoring, windowing, ranking and confidence logic is
embedded from the source. -/

/-- One corpus file: `relativePath`, `name`, and the text `fs.readFile`
produced for it. -/
structure CorpusFile where
  relativePath : String
  name : String
  content : String
deriving DecidableEq

/-- `contextType` values of a `CodeContext` (`class` is a Lean keyword,
hence `classDecl`; `interface` is embedded as `interfaceDecl` for
symmetry). -/
inductive ContextType
  | function
  | classDecl
  | interfaceDecl
  | component
  | config
  | test
  | documentation
deriving DecidableEq

/-- `CodeContext` search result. -/
structure CodeContext where
  filePath : String
  fileName : String
  repository : String
  content : String
  relevanceScore : ℚ
  lineNumbers : Option (Nat × Nat)
  language : String
  contextType : ContextType
deriving DecidableEq

/-- `CodeSearchResult`. -/
structure CodeSearchResult where
  contexts : List CodeContext
  totalMatches : Nat
  searchTerms : List String
  confidence : ℚ
deriving DecidableEq

/-- `a.startsWith(b)` on char lists (structural, so it evaluates in the
kernel). -/
def listStartsWith : List Char → List Char → Bool
  | _, [] => true
  | [], _ :: _ => false
  | a :: as, b :: bs => a == b && listStartsWith as bs

/-- `s.includes(t)` on char lists. -/
def listContainsSub (s t : List Char) : Bool :=
  listStartsWith s t ||
    match s with
    | [] => false
    | _ :: cs => listContainsSub cs t

/-- JavaScript `String.prototype.includes`. -/
def strIncludes (s t : String) : Bool :=
  listContainsSub s.data t.data

/-- `\w` of JavaScript regexes: `[A-Za-z0-9_]`. -/
def isWordChar (c : Char) : Bool :=
  c.isAlpha || c.isDigit || c == '_'

/-- The curated `technicalTerms` vocabulary of `extractSearchTerms`. -/
def technicalTerms : List String :=
  ["function", "class", "interface", "component", "method", "variable", "constant",
   "async", "await", "promise", "callback", "event", "handler", "listener",
   "state", "props", "context", "hook", "effect", "reducer", "action",
   "error", "bug", "crash", "fail", "exception", "timeout", "memory", "leak",
   "performance", "slow", "optimization", "bottleneck", "deadlock",
   "react", "typescript", "javascript", "node", "express", "api", "database",
   "sql", "mongodb", "redis", "auth", "authentication", "authorization",
   "test", "testing", "jest", "cypress", "docker", "kubernetes",
   "config", "configuration", "env", "environment", "package", "dependency",
   "route", "middleware", "controller", "service", "util", "helper"]

/-- `[a-z]+[A-Z]` — one or more lowercase letters followed by an uppercase
one, anchored at the current position. -/
def camelTail : List Char → Bool
  | c :: d :: cs => c.isLower && (d.isUpper || camelTail (d :: cs))
  | _ => false

/-- The `/^[A-Z][a-z]+[A-Z]/` camelCase test of `extractSearchTerms`. -/
def camelCaseTest (w : String) : Bool :=
  match w.data with
  | c :: rest => c.isUpper && camelTail rest
  | [] => false

/-- `[...new Set(xs)]`: deduplicate keeping first occurrences. -/
def dedupFirst : List String → List String
  | [] => []
  | x :: xs => x :: dedupFirst (xs.filter (fun y => y != x))
termination_by l => l.length
decreasing_by
  exact Nat.lt_succ_of_le (List.length_filter_le _ _)

/-- `query.toLowerCase().replace(/[^\w\s]/g, ' ')`. -/
def scrubNonWord (s : String) : String :=
  ⟨s.data.map (fun c => if isWordChar c || c.isWhitespace then c else ' ')⟩

/-- `extractSearchTerms(query)`: lowercase, scrub punctuation, split on
whitespace, keep words longer than 2 that are vocabulary terms, longer than
4, or camelCase; then append every vocabulary term occurring verbatim in
the lowercased query; deduplicate. -/
def extractSearchTerms (query : String) : List String :=
  let words := ((scrubNonWord query.toLower).split (fun c => c.isWhitespace)).filter
    (fun w => w.length > 2)
  let searchTerms := words.filter (fun w =>
    technicalTerms.contains w || w.length > 4 || camelCaseTest w)
  let withPhrases := searchTerms ++ technicalTerms.filter
    (fun t => strIncludes query.toLower t)
  dedupFirst withPhrases

/-- Number of non-overlapping word-boundary matches of `t` in `s` — the
`content.match(new RegExp('\\b' + term + '\\b', 'gi')).length` count.
`prev` is the character just before the scan position (`none` at the start
of the text). -/
def countWB (t : List Char) (prev : Option Char) (s : List Char) : Nat :=
  if t.isEmpty then 0
  else
    match s with
    | [] => 0
    | c :: cs =>
      let bOk := match prev with
        | none => true
        | some p => !isWordChar p
      let afterOk := match (c :: cs).drop t.length with
        | [] => true
        | d :: _ => !isWordChar d
      if bOk && listStartsWith (c :: cs) t && afterOk then
        1 + countWB t (some (t.getLastD c)) ((c :: cs).drop t.length)
      else
        countWB t (some c) cs
termination_by s.length
decreasing_by
  · simp only [List.length_drop, List.length_cons]
    have : 1 ≤ t.length := by
      cases t with
      | nil => simp_all [List.isEmpty]
      | cons a b => simp
    omega
  · simp

/-- `calculateFileRelevance(file, content, searchTerms, originalQuery)`:
+0.3 per term in the file name, +0.2 per term in the relative path, up to
+0.2 per term from word-boundary content occurrences (0.05 each), +0.2
query-context bonuses, clamped above by 1. -/
def calculateFileRelevance (file : CorpusFile) (content : String)
    (searchTerms : List String) (originalQuery : String) : ℚ :=
  let contentLower := content.toLower
  let fileName := file.name.toLower
  let filePath := file.relativePath.toLower
  let nameScore := (searchTerms.map (fun term =>
    (if strIncludes fileName term then (3 : ℚ)/10 else 0) +
    (if strIncludes filePath term then (2 : ℚ)/10 else 0))).sum
  let contentScore := (searchTerms.map (fun term =>
    let n := countWB term.data none contentLower.data
    if n > 0 then min ((n : ℚ) * 5/100) (2/10) else 0)).sum
  let bonus :=
    (if strIncludes originalQuery "test" &&
        (strIncludes fileName "test" || strIncludes fileName "spec") then (2 : ℚ)/10 else 0) +
    (if strIncludes originalQuery "config" &&
        (strIncludes fileName "config" || strIncludes fileName "env") then (2 : ℚ)/10 else 0) +
    (if strIncludes originalQuery "component" &&
        strIncludes fileName "component" then (2 : ℚ)/10 else 0)
  min (nameScore + contentScore + bonus) 1

/-- `extractRelevantSection(content, searchTerms)`: score each line by the
number of terms it contains, pick the highest-scoring line (stable sort by
score descending), and cut a ±15-line window around it; returns the window
text and its 1-based line range. -/
def extractRelevantSection (content : String) (searchTerms : List String) :
    Option (String × Nat × Nat) :=
  let lines := content.splitOn "\n"
  let relevantLines := lines.enum.filterMap (fun il =>
    let score := (searchTerms.filter (fun t => strIncludes il.2.toLower t)).length
    if score > 0 then some (il.1, score) else none)
  match relevantLines.mergeSort (fun a b => decide (b.2 ≤ a.2)) with
  | [] => none
  | best :: _ =>
    let start := best.1 - 15
    let stop := min (lines.length - 1) (best.1 + 15)
    let sectionLines := (lines.drop start).take (stop + 1 - start)
    some (String.intercalate "\n" sectionLines, start + 1, stop + 1)

/-- `detectLanguage(fileName)`: map of the extension after the last dot. -/
def detectLanguage (fileName : String) : String :=
  let extension := (fileName.splitOn ".").getLastD "" |>.toLower
  if extension == "ts" then "typescript"
  else if extension == "tsx" then "typescript"
  else if extension == "js" then "javascript"
  else if extension == "jsx" then "javascript"
  else if extension == "py" then "python"
  else if extension == "java" then "java"
  else if extension == "cs" then "csharp"
  else if extension == "go" then "go"
  else if extension == "rs" then "rust"
  else if extension == "php" then "php"
  else if extension == "rb" then "ruby"
  else if extension == "cpp" then "cpp"
  else if extension == "c" then "c"
  else if extension == "h" then "c"
  else if extension == "css" then "css"
  else if extension == "scss" then "scss"
  else if extension == "html" then "html"
  else if extension == "json" then "json"
  else if extension == "xml" then "xml"
  else if extension == "yaml" then "yaml"
  else if extension == "yml" then "yaml"
  else if extension == "md" then "markdown"
  else if extension == "sql" then "sql"
  else if extension == "sh" then "bash"
  else if extension == "dockerfile" then "dockerfile"
  else "text"

/-- `determineContextType(filePath, content)`: first-match-wins ordered
checks over the lowercased path and content. -/
def determineContextType (filePath content : String) : ContextType :=
  let fileName := filePath.toLower
  let contentLower := content.toLower
  if strIncludes fileName "test" || strIncludes fileName "spec" then .test
  else if strIncludes fileName "config" || strIncludes fileName ".env" ||
      strIncludes fileName "package.json" then .config
  else if strIncludes fileName "readme" || strIncludes fileName ".md" then .documentation
  else if strIncludes contentLower "class " || strIncludes contentLower "export class" then
    .classDecl
  else if strIncludes contentLower "interface " ||
      strIncludes contentLower "export interface" then .interfaceDecl
  else if strIncludes contentLower "function " || strIncludes contentLower "const " ||
      strIncludes contentLower "export function" then .function
  else if strIncludes fileName "component" || strIncludes contentLower "react" ||
      strIncludes contentLower "jsx" then .component
  else .function

/-- `calculateSearchConfidence(contexts, searchTerms)`: capped result-count
contribution, 0.4 × mean relevance, fixed 0.3 when any term was extracted;
clamped above by 1, and 0 for an empty result list. -/
def calculateSearchConfidence (contexts : List CodeContext)
    (searchTerms : List String) : ℚ :=
  if contexts.length = 0 then 0
  else
    let base := min ((contexts.length : ℚ) * 1/10) (3/10)
    let avgRelevance := (contexts.map (fun c => c.relevanceScore)).sum / (contexts.length : ℚ)
    let termCoverage : ℚ := if searchTerms.length > 0 then 3/10 else 0
    min (base + avgRelevance * 4/10 + termCoverage) 1

/-- `searchCodeContext(query, maxResults)` over a given corpus: score every
file, keep scores above 0.1, window files longer than 2000 characters,
stable-sort by score descending, truncate to `maxResults`, and attach the
confidence of the kept results. -/
def searchCodeContext (corpus : List CorpusFile) (query : String)
    (maxResults : Nat) : CodeSearchResult :=
  let searchTerms := extractSearchTerms query
  if corpus.length = 0 then ⟨[], 0, searchTerms, 0⟩
  else
    let contexts := corpus.filterMap (fun file =>
      let content := file.content
      let relevanceScore := calculateFileRelevance file content searchTerms query
      if relevanceScore > 1/10 then
        let base : CodeContext :=
          ⟨file.relativePath, file.name, "current-project", content, relevanceScore,
           none, detectLanguage file.name, determineContextType file.relativePath content⟩
        if content.length > 2000 then
          match extractRelevantSection content searchTerms with
          | some sec => some { base with content := sec.1, lineNumbers := some sec.2 }
          | none => some base
        else some base
      else none)
    let limited := (contexts.mergeSort
      (fun a b => decide (b.relevanceScore ≤ a.relevanceScore))).take maxResults
    ⟨limited, contexts.length, searchTerms, calculateSearchConfidence limited searchTerms⟩

/-! ## Analysis orchestrator confidence (issue-analysis.ts / part_011) -/

/-- `IssueMatch` of `issue-analysis.ts`. -/
structure IssueMatch where
  id : String
  title : String
  body : String
  labels : List String
  state : IssueState
  repository : String
  url : String
  relevanceScore : ℚ
  suggestedActions : List String
deriving DecidableEq

/-- Priority of a generated `CodeSuggestion`. -/
inductive SuggestionPriority
  | high
  | medium
  | low
deriving DecidableEq

/-- Category of a generated `CodeSuggestion`. -/
inductive SuggestionCategory
  | bugFix
  | performance
  | security
  | bestPractice
  | feature
deriving DecidableEq

/-- `CodeSuggestion` of `issue-analysis.ts` (template code text elided to a
placeholder string; only list membership and counts feed the confidence). -/
structure CodeSuggestionRec where
  id : String
  title : String
  description : String
  code : String
  language : String
  filePath : Option String
  repository : Option String
  priority : SuggestionPriority
  category : SuggestionCategory
deriving DecidableEq

/-- `IssueAnalysisService.calculateConfidence(issues, suggestions, keywords,
codeContexts)`: capped keyword/issue/suggestion contributions, an uncapped
+0.05 per high-relevance issue, capped code-context contributions, clamped
above by 1.  `analyzeUserStatement` returns this value verbatim as the
analysis confidence. -/
def calculateConfidence (issues : List IssueMatch)
    (suggestions : List CodeSuggestionRec) (keywords : List String)
    (codeContexts : Option (List CodeContext)) : ℚ :=
  let fromKeywords := min ((keywords.length : ℚ) * 1/10) (3/10)
  let fromIssues := min ((issues.length : ℚ) * 15/100) (4/10)
  let fromSuggestions := min ((suggestions.length : ℚ) * 1/10) (3/10)
  let highRelevance :=
    ((issues.filter (fun i => decide (i.relevanceScore > 8/10))).length : ℚ) * 5/100
  let fromContexts :=
    match codeContexts with
    | some ctxs =>
      if ctxs.length > 0 then
        min ((ctxs.length : ℚ) * 1/10) (2/10) +
          ((ctxs.filter (fun c => decide (c.relevanceScore > 5/10))).length : ℚ) * 5/100
      else 0
    | none => 0
  min (fromKeywords + fromIssues + fromSuggestions + highRelevance + fromContexts) 1

/-! ## Tree reconstructor (`buildFileTree` of github-db.ts)

`buildFileTree` sorts the flat file list with
`files.sort((a, b) => a.path.localeCompare(b.path))` and then runs one
left-to-right pass, keeping a `Map` from path to the node object most
recently created for that path and pushing each node either into the root
list or into the children array of the mapped parent node (when that node
exists and has a children array, i.e. is a directory).

The mutable object graph is embedded by indexing the sorted entries: the
pass is a fold producing (a) the root indices in push order, (b) for every
index the list of child indices pushed into its node, and (c) the path map
as an association list with the most recent binding first.  The returned
`FileTreeNode` forest is then materialized from that data with a fuel-based
recursion; fuel `sorted.length` is exact for everything reachable from a
root (child indices strictly exceed parent indices along reachable chains).

`localeCompare` is modelled as lexicographic char-list comparison (a
structural function, so concrete trees evaluate in the kernel); JavaScript's
`Array.prototype.sort` is stable, which `List.mergeSort` matches. -/

/-- `FileTreeNode` of github-db.ts.  `children` is `some _` exactly for
directory nodes, `none` for files. -/
inductive FileTreeNode where
  | mk (name path : String) (type : FileType) (sha : String) (size : Option Nat)
      (downloadUrl : Option String) (children : Option (List FileTreeNode))
      (isExpanded : Bool)

/-- Node name. -/
def FileTreeNode.name : FileTreeNode → String
  | .mk n _ _ _ _ _ _ _ => n

/-- Node path. -/
def FileTreeNode.path : FileTreeNode → String
  | .mk _ p _ _ _ _ _ _ => p

/-- Node type. -/
def FileTreeNode.type : FileTreeNode → FileType
  | .mk _ _ t _ _ _ _ _ => t

/-- Node children (`none` for file nodes). -/
def FileTreeNode.children : FileTreeNode → Option (List FileTreeNode)
  | .mk _ _ _ _ _ _ c _ => c

/-- Lexicographic `≤` on char lists: the model of
`a.localeCompare(b) <= 0`. -/
def clLe : List Char → List Char → Bool
  | [], _ => true
  | _ :: _, [] => false
  | a :: as, b :: bs => if a = b then clLe as bs else decide (a < b)

/-- Path comparison used by the sort. -/
def localeLe (a b : String) : Bool :=
  clLe a.data b.data

/-- `files.sort((a, b) => a.path.localeCompare(b.path))` — a stable sort by
path. -/
def sortFiles (files : List GitHubFile) : List GitHubFile :=
  files.mergeSort (fun a b => localeLe a.path b.path)

/-- State of the single pass: root indices in push order, children pushed
per index, and the path map (most recent `Map.set` first; the `Bool` records
whether the mapped node has a children array, i.e. was built from a `dir`
entry). -/
structure BuildState where
  tree : List Nat
  childAcc : Nat → List Nat
  pathMap : List (String × Nat × Bool)

/-- `Map.get`: first (most recent) binding of the path. -/
def lookupPath : List (String × Nat × Bool) → String → Option (Nat × Bool)
  | [], _ => none
  | (q, j, d) :: rest, p => if q = p then some (j, d) else lookupPath rest p

/-- One iteration of the `for (const file of files)` loop, for the entry at
sorted position `i`: `pathMap.set(file.path, node)` first, then either push
to the root list (`parentPath` empty or `'/'`) or push into the children of
the mapped parent when that lookup yields a node with a children array. -/
def buildStep (st : BuildState) (entry : Nat × GitHubFile) : BuildState :=
  if entry.2.parentPath = "" ∨ entry.2.parentPath = "/" then
    { tree := st.tree ++ [entry.1], childAcc := st.childAcc,
      pathMap := (entry.2.path, entry.1, decide (entry.2.type = .dir)) :: st.pathMap }
  else
    match lookupPath ((entry.2.path, entry.1, decide (entry.2.type = .dir)) :: st.pathMap)
        entry.2.parentPath with
    | some (j, true) =>
      { tree := st.tree,
        childAcc := fun k => if k = j then st.childAcc j ++ [entry.1] else st.childAcc k,
        pathMap := (entry.2.path, entry.1, decide (entry.2.type = .dir)) :: st.pathMap }
    | _ =>
      { tree := st.tree, childAcc := st.childAcc,
        pathMap := (entry.2.path, entry.1, decide (entry.2.type = .dir)) :: st.pathMap }

/-- The full pass over the sorted, position-indexed entries. -/
def buildPass (sorted : List GitHubFile) : BuildState :=
  sorted.enum.foldl buildStep ⟨[], fun _ => [], []⟩

/-- Placeholder entry for out-of-range index accesses (never reached from a
well-formed traversal). -/
def dummyFile : GitHubFile :=
  ⟨"", "", "", .file, "", none, none, none, "", ""⟩

/-- Materialize the node object for sorted position `i`: entry data plus, for
directories, the children pushed into it, recursively materialized.  `fuel`
bounds the recursion depth; `buildFileTree` passes `sorted.length`, which is
shown to be exact for every node reachable from the root list. -/
def mkNode (sorted : List GitHubFile) (ca : Nat → List Nat) : Nat → Nat → FileTreeNode
  | fuel, i =>
    FileTreeNode.mk (sorted.getD i dummyFile).name (sorted.getD i dummyFile).path
      (sorted.getD i dummyFile).type (sorted.getD i dummyFile).sha
      (sorted.getD i dummyFile).size (sorted.getD i dummyFile).downloadUrl
      (if (sorted.getD i dummyFile).type = .dir then
        some (match fuel with
          | 0 => []
          | fuel' + 1 => (ca i).map (fun c => mkNode sorted ca fuel' c))
        else none)
      false

/-- `buildFileTree(files)`: sort, run the pass, return the root list. -/
def buildFileTree (files : List GitHubFile) : List FileTreeNode :=
  let sorted := sortFiles files
  let st := buildPass sorted
  st.tree.map (fun r => mkNode sorted st.childAcc sorted.length r)

mutual

/-- Depth-first path collection over a node (the flattening used to state
the tree-reconstruction properties). -/
def flattenNode : FileTreeNode → List String
  | .mk _ p _ _ _ _ none _ => [p]
  | .mk _ p _ _ _ _ (some cs) _ => p :: flattenList cs

def flattenList : List FileTreeNode → List String
  | [] => []
  | n :: ns => flattenNode n ++ flattenList ns

end


/-- Depth-first path collection over a forest. -/
def flattenForest (ts : List FileTreeNode) : List String :=
  flattenList ts

mutual

/-- All nodes of a subtree, the root included, depth-first. -/
def nodesOf : FileTreeNode → List FileTreeNode
  | .mk n p t s z d none e => [.mk n p t s z d none e]
  | .mk n p t s z d (some cs) e => .mk n p t s z d (some cs) e :: nodesList cs

def nodesList : List FileTreeNode → List FileTreeNode
  | [] => []
  | n :: ns => nodesOf n ++ nodesList ns

end

/-- All nodes of a forest. -/
def forestNodes (ts : List FileTreeNode) : List FileTreeNode :=
  nodesList ts

/-- Index-level mirror of `mkNode`: the sorted positions visited by a
depth-first traversal from position `i` with the given fuel. -/
def reachIdx (ca : Nat → List Nat) : Nat → Nat → List Nat
  | 0, i => [i]
  | fuel + 1, i => i :: (ca i).flatMap (fun c => reachIdx ca fuel c)

/-- Sorted positions reachable from the root list of the pass; the traversal
order of `buildFileTree`'s forest. -/
def forestIdx (sorted : List GitHubFile) : List Nat :=
  (buildPass sorted).tree.flatMap (fun r => reachIdx (buildPass sorted).childAcc sorted.length r)

/-- `Map.get` at the moment entry `k` was processed returns the latest among
positions `j < k + 1` whose path matches; this recursion computes exactly
that. -/
def lookupSpec (sorted : List GitHubFile) : Nat → String → Option (Nat × Bool)
  | 0, _ => none
  | k + 1, p =>
    if (sorted.getD k dummyFile).path = p then
      some (k, decide ((sorted.getD k dummyFile).type = .dir))
    else lookupSpec sorted k p

/-- Where the pass attaches the entry at sorted position `i`: `none` both
for root entries (pushed to the root list) and for dropped entries (parent
lookup missed or hit a file node); `some j` when the entry is pushed into
the children of the node at position `j`. -/
def attachIdx (sorted : List GitHubFile) (i : Nat) : Option Nat :=
  let f := sorted.getD i dummyFile
  if f.parentPath = "" ∨ f.parentPath = "/" then none
  else
    match lookupSpec sorted (i + 1) f.parentPath with
    | some (j, true) => some j
    | _ => none

/-- Whether the entry at sorted position `i` is pushed to the root list. -/
def isRootEntry (f : GitHubFile) : Bool :=
  f.parentPath == "" || f.parentPath == "/"

/-- The ancestor chain of sorted position `i` through `attachIdx`, with
explicit fuel (`ancChain sorted i i` is the actual chain whenever every
attachment points strictly downward, which holds under the parent-path
invariant). -/
def ancChain (sorted : List GitHubFile) : Nat → Nat → List Nat
  | 0, i => [i]
  | fuel + 1, i =>
    i :: (match attachIdx sorted i with
      | none => []
      | some j => ancChain sorted fuel j)

/-- The path map contents after the first `k` entries have been processed:
the binding of entry `k - 1` first (most recent), down to entry `0`. -/
def pathMapUpTo (sorted : List GitHubFile) : Nat → List (String × Nat × Bool)
  | 0 => []
  | k + 1 =>
    ((sorted.getD k dummyFile).path, k, decide ((sorted.getD k dummyFile).type = .dir)) ::
      pathMapUpTo sorted k

/-- Root indices accumulated after the first `k` entries. -/
def treeUpTo (sorted : List GitHubFile) (k : Nat) : List Nat :=
  (List.range k).filter (fun i => isRootEntry (sorted.getD i dummyFile))

/-- Children accumulated on index `j` after the first `k` entries. -/
def childUpTo (sorted : List GitHubFile) (k j : Nat) : List Nat :=
  (List.range k).filter (fun i => attachIdx sorted i == some j)

/-- `p` is a strict prefix of `q` (on the underlying character lists). -/
def strictPrefOf (p q : String) : Prop :=
  p.data.length < q.data.length ∧ q.data.take p.data.length = p.data

instance (p q : String) : Decidable (strictPrefOf p q) := by
  unfold strictPrefOf
  infer_instance

/-- `r` is `i` itself or a (transitive) attachment target of `i` — the
ancestor relation of the pass. -/
inductive AncRel (sorted : List GitHubFile) : Nat → Nat → Prop
  | refl (i : Nat) : AncRel sorted i i
  | step {i j r : Nat} : attachIdx sorted i = some j → AncRel sorted j r →
      AncRel sorted i r

/-! ## Proofs: score and confidence bounds (C6), ranking shape (C7) -/

theorem sum_map_nonneg {α : Type} (l : List α) (f : α → ℚ)
    (h : ∀ x ∈ l, 0 ≤ f x) : 0 ≤ (l.map f).sum := by
  refine List.sum_nonneg ?_
  intro x hx
  obtain ⟨a, ha, rfl⟩ := List.mem_map.1 hx
  exact h a ha

theorem calculateFileRelevance_bounds (file : CorpusFile) (content : String)
    (searchTerms : List String) (originalQuery : String) :
    0 ≤ calculateFileRelevance file content searchTerms originalQuery ∧
      calculateFileRelevance file content searchTerms originalQuery ≤ 1 := by
  unfold calculateFileRelevance
  refine ⟨le_min ?_ (by norm_num), min_le_right _ _⟩
  have h1 : (0 : ℚ) ≤ (searchTerms.map (fun term =>
      (if strIncludes file.name.toLower term then (3 : ℚ)/10 else 0) +
      (if strIncludes file.relativePath.toLower term then (2 : ℚ)/10 else 0))).sum := by
    refine sum_map_nonneg _ _ ?_
    intro t _
    have : (0 : ℚ) ≤ (if strIncludes file.name.toLower t then (3 : ℚ)/10 else 0) := by
      split <;> norm_num
    have : (0 : ℚ) ≤ (if strIncludes file.relativePath.toLower t then (2 : ℚ)/10 else 0) := by
      split <;> norm_num
    linarith
  have h2 : (0 : ℚ) ≤ (searchTerms.map (fun term =>
      let n := countWB term.data none content.toLower.data
      if n > 0 then min ((n : ℚ) * 5/100) (2/10) else 0)).sum := by
    refine sum_map_nonneg _ _ ?_
    intro t _
    simp only
    split
    · exact le_min (by positivity) (by norm_num)
    · exact le_refl 0
  have h3 : (0 : ℚ) ≤
      (if strIncludes originalQuery "test" &&
          (strIncludes file.name.toLower "test" || strIncludes file.name.toLower "spec")
        then (2 : ℚ)/10 else 0) := by split <;> norm_num
  have h4 : (0 : ℚ) ≤
      (if strIncludes originalQuery "config" &&
          (strIncludes file.name.toLower "config" || strIncludes file.name.toLower "env")
        then (2 : ℚ)/10 else 0) := by split <;> norm_num
  have h5 : (0 : ℚ) ≤
      (if strIncludes originalQuery "component" && strIncludes file.name.toLower "component"
        then (2 : ℚ)/10 else 0) := by split <;> norm_num
  linarith

theorem calculateSearchConfidence_bounds (contexts : List CodeContext)
    (searchTerms : List String)
    (h : ∀ c ∈ contexts, 0 ≤ c.relevanceScore) :
    0 ≤ calculateSearchConfidence contexts searchTerms ∧
      calculateSearchConfidence contexts searchTerms ≤ 1 := by
  unfold calculateSearchConfidence
  split
  · norm_num
  · refine ⟨le_min ?_ (by norm_num), min_le_right _ _⟩
    have hbase : (0 : ℚ) ≤ min ((contexts.length : ℚ) * 1/10) (3/10) :=
      le_min (by positivity) (by norm_num)
    have hsum : (0 : ℚ) ≤ (contexts.map (fun c => c.relevanceScore)).sum :=
      sum_map_nonneg _ _ h
    have havg : (0 : ℚ) ≤ (contexts.map (fun c => c.relevanceScore)).sum / (contexts.length : ℚ) :=
      div_nonneg hsum (by positivity)
    have hcov : (0 : ℚ) ≤ (if searchTerms.length > 0 then (3 : ℚ)/10 else 0) := by
      split <;> norm_num
    nlinarith

theorem searchCodeContext_contexts_scores (corpus : List CorpusFile) (query : String)
    (maxResults : Nat) :
    ∀ c ∈ (searchCodeContext corpus query maxResults).contexts,
      0 ≤ c.relevanceScore ∧ c.relevanceScore ≤ 1 := by
  intro c hc
  unfold searchCodeContext at hc
  split at hc
  · simp at hc
  · simp only at hc
    have hc' := List.mem_of_mem_take hc
    rw [(List.mergeSort_perm _ _).mem_iff] at hc'
    obtain ⟨file, _, heq⟩ := List.mem_filterMap.1 hc'
    have hb := calculateFileRelevance_bounds file file.content
      (extractSearchTerms query) query
    split at heq
    · split at heq
      · split at heq
        · cases heq; exact hb
        · cases heq; exact hb
      · cases heq; exact hb
    · cases heq

theorem calculateConfidence_bounds (issues : List IssueMatch)
    (suggestions : List CodeSuggestionRec) (keywords : List String)
    (codeContexts : Option (List CodeContext)) :
    0 ≤ calculateConfidence issues suggestions keywords codeContexts ∧
      calculateConfidence issues suggestions keywords codeContexts ≤ 1 := by
  unfold calculateConfidence
  refine ⟨le_min ?_ (by norm_num), min_le_right _ _⟩
  have h1 : (0 : ℚ) ≤ min ((keywords.length : ℚ) * 1/10) (3/10) :=
    le_min (by positivity) (by norm_num)
  have h2 : (0 : ℚ) ≤ min ((issues.length : ℚ) * 15/100) (4/10) :=
    le_min (by positivity) (by norm_num)
  have h3 : (0 : ℚ) ≤ min ((suggestions.length : ℚ) * 1/10) (3/10) :=
    le_min (by positivity) (by norm_num)
  have h4 : (0 : ℚ) ≤
      ((issues.filter (fun i => decide (i.relevanceScore > 8/10))).length : ℚ) * 5/100 := by
    positivity
  have h5 : (0 : ℚ) ≤ (match codeContexts with
      | some ctxs =>
        if ctxs.length > 0 then
          min ((ctxs.length : ℚ) * 1/10) (2/10) +
            ((ctxs.filter (fun c => decide (c.relevanceScore > 5/10))).length : ℚ) * 5/100
        else 0
      | none => 0) := by
    match codeContexts with
    | some ctxs =>
      simp only
      split
      · have := le_min (by positivity : (0:ℚ) ≤ (ctxs.length : ℚ) * 1/10)
          (by norm_num : (0:ℚ) ≤ (2:ℚ)/10)
        have : (0 : ℚ) ≤
            ((ctxs.filter (fun c => decide (c.relevanceScore > 5/10))).length : ℚ) * 5/100 := by
          positivity
        linarith
      · exact le_refl 0
    | none => exact le_refl 0
  linarith

/-- C6.  Every relevance score produced by `calculateFileRelevance` lies in
[0, 1]; the confidence `searchCodeContext` returns lies in [0, 1]; and the
confidence `analyzeUserStatement` returns — the verbatim value of
`IssueAnalysisService.calculateConfidence` on the analysis artefacts — lies
in [0, 1] for all arguments. -/
theorem claim_C6_bounds :
    (∀ (file : CorpusFile) (content : String) (searchTerms : List String)
        (originalQuery : String),
      0 ≤ calculateFileRelevance file content searchTerms originalQuery ∧
        calculateFileRelevance file content searchTerms originalQuery ≤ 1) ∧
    (∀ (corpus : List CorpusFile) (query : String) (maxResults : Nat),
      0 ≤ (searchCodeContext corpus query maxResults).confidence ∧
        (searchCodeContext corpus query maxResults).confidence ≤ 1) ∧
    (∀ (issues : List IssueMatch) (suggestions : List CodeSuggestionRec)
        (keywords : List String) (codeContexts : Option (List CodeContext)),
      0 ≤ calculateConfidence issues suggestions keywords codeContexts ∧
        calculateConfidence issues suggestions keywords codeContexts ≤ 1) := by
  refine ⟨calculateFileRelevance_bounds, ?_, calculateConfidence_bounds⟩
  intro corpus query maxResults
  have hmem := searchCodeContext_contexts_scores corpus query maxResults
  unfold searchCodeContext
  unfold searchCodeContext at hmem
  split
  · norm_num
  · split at hmem
    · omega
    · simp only at hmem ⊢
      exact calculateSearchConfidence_bounds _ _ (fun c hc => (hmem c hc).1)

theorem take_mergeSort_sorted (l : List CodeContext) (k : Nat) :
    ((l.mergeSort (fun a b => decide (b.relevanceScore ≤ a.relevanceScore))).take k).Pairwise
      (fun a b => b.relevanceScore ≤ a.relevanceScore) := by
  have hs : (l.mergeSort (fun a b => decide (b.relevanceScore ≤ a.relevanceScore))).Pairwise
      (fun a b => decide (b.relevanceScore ≤ a.relevanceScore) = true) :=
    List.sorted_mergeSort
    (fun a b c hab hbc => by
      simp only [decide_eq_true_eq] at *
      exact le_trans hbc hab)
    (fun a b => by
      simp only [Bool.or_eq_true, decide_eq_true_eq]
      exact le_total b.relevanceScore a.relevanceScore) l
  have hp := List.Pairwise.sublist (List.take_sublist k _) hs
  exact hp.imp (fun h => by simpa using h)

/-- C7.  The context list returned by `searchCodeContext` is sorted by
relevance score in non-increasing order and never exceeds `maxResults` in
length. -/
theorem claim_C7_sorted_truncated (corpus : List CorpusFile) (query : String)
    (maxResults : Nat) :
    ((searchCodeContext corpus query maxResults).contexts).Pairwise
        (fun a b => b.relevanceScore ≤ a.relevanceScore) ∧
      ((searchCodeContext corpus query maxResults).contexts).length ≤ maxResults := by
  unfold searchCodeContext
  split
  · simp
  · exact ⟨take_mergeSort_sorted _ _, List.length_take_le _ _⟩

/-! ## Proofs: pagination loop (C2, C3, C4, C5) -/

theorem fetchLoop_iterations_le (getPage : Nat → Option (List GitHubIssue))
    (state : IssueState) (maxIssues perPage : Nat) (hpp : 0 < perPage) :
    ∀ (n : Nat) (acc : List GitHubIssue) (iter : Nat) (reqs : List PageRequest),
      maxIssues - acc.length ≤ n →
      (fetchLoop getPage state maxIssues perPage acc iter reqs).iterations ≤
        iter + ((maxIssues - acc.length) + perPage - 1) / perPage + 1 := by
  intro n
  induction n with
  | zero =>
    intro acc iter reqs hn
    rw [fetchLoop, dif_neg (by omega)]
    dsimp only
    generalize (maxIssues - acc.length + perPage - 1) / perPage = q
    omega
  | succ n ih =>
    intro acc iter reqs hn
    rw [fetchLoop]
    by_cases hlt : acc.length < maxIssues
    · rw [dif_pos hlt]
      dsimp only
      cases hgp : getPage iter with
      | none =>
        dsimp only
        generalize (maxIssues - acc.length + perPage - 1) / perPage = q
        omega
      | some pageIssues =>
        dsimp only
        by_cases hz : pageIssues.length = 0
        · rw [if_pos hz]
          dsimp only
          generalize (maxIssues - acc.length + perPage - 1) / perPage = q
          omega
        · rw [if_neg hz]
          by_cases hshort : pageIssues.length < perPage
          · rw [if_pos hshort]
            dsimp only
            generalize (maxIssues - acc.length + perPage - 1) / perPage = q
            omega
          · rw [if_neg hshort]
            have hlen : (acc ++ pageIssues.take (maxIssues - acc.length)).length =
                acc.length + min (maxIssues - acc.length) pageIssues.length := by
              simp
            have hmin1 : acc.length + 1 ≤
                acc.length + min (maxIssues - acc.length) pageIssues.length :=
              Nat.add_le_add_left (le_min (by omega) (by omega)) acc.length
            have hlen1 : acc.length + 1 ≤
                (acc ++ pageIssues.take (maxIssues - acc.length)).length := by
              rw [hlen]; exact hmin1
            have hrec := ih (acc ++ pageIssues.take (maxIssues - acc.length)) (iter + 1)
              (reqs ++ [⟨state, 50, 1⟩]) (by omega)
            have key : (maxIssues - (acc ++ pageIssues.take (maxIssues - acc.length)).length +
                  perPage - 1) / perPage + 1 ≤
                (maxIssues - acc.length + perPage - 1) / perPage := by
              rw [hlen]
              by_cases hbig : maxIssues - acc.length ≤ pageIssues.length
              · have hmineq : min (maxIssues - acc.length) pageIssues.length =
                    maxIssues - acc.length := min_eq_left hbig
                rw [hmineq]
                have h0 : maxIssues - (acc.length + (maxIssues - acc.length)) = 0 := by omega
                rw [h0]
                have hz0 : (0 + perPage - 1) / perPage = 0 := Nat.div_eq_of_lt (by omega)
                rw [hz0, Nat.zero_add, Nat.one_le_div_iff hpp]
                omega
              · have hmineq : min (maxIssues - acc.length) pageIssues.length =
                    pageIssues.length := min_eq_right (le_of_not_le hbig)
                rw [hmineq]
                have hR' : maxIssues - (acc.length + pageIssues.length) =
                    (maxIssues - acc.length) - pageIssues.length := by omega
                rw [hR']
                have step1 : ((maxIssues - acc.length) - pageIssues.length + perPage - 1) /
                    perPage ≤ ((maxIssues - acc.length) - 1) / perPage :=
                  Nat.div_le_div_right (by omega)
                have step3 : ((maxIssues - acc.length) - 1) / perPage + 1 =
                    (maxIssues - acc.length + perPage - 1) / perPage := by
                  have hdiv := Nat.add_div_right ((maxIssues - acc.length) - 1) hpp
                  have he2 : (maxIssues - acc.length) - 1 + perPage =
                      maxIssues - acc.length + perPage - 1 := by omega
                  rw [← he2, hdiv]
                omega
            exact le_trans hrec (by omega)
    · rw [dif_neg hlt]
      dsimp only
      generalize (maxIssues - acc.length + perPage - 1) / perPage = q
      omega

/-- On a non-integral budget, against pages that are never empty and never
shorter than `perPage`, the loop never exits: the slice truncation caps the
accumulator at `⌊maxIssues⌋`, which keeps the guard
`issues.length < maxIssues` true, and neither break fires. -/
theorem fetchLoopJS_spins (getPage : Nat → Option (List GitHubIssue))
    (state : IssueState) (maxIssues perPage : ℚ)
    (hfrac : ((⌊maxIssues⌋ : ℤ) : ℚ) ≠ maxIssues)
    (hpage : ∀ p, ∃ l, getPage p = some l ∧ l ≠ [] ∧ perPage ≤ (l.length : ℚ)) :
    ∀ fuel acc iter reqs, ((acc.length : ℚ)) < maxIssues →
      fetchLoopJS getPage state maxIssues perPage fuel acc iter reqs = none := by
  intro fuel
  induction fuel with
  | zero => intro acc iter reqs _; rfl
  | succ fuel ih =>
    intro acc iter reqs hlt
    obtain ⟨l, hl, hne, hlen⟩ := hpage iter
    rw [fetchLoopJS, if_pos hlt, hl]
    dsimp only
    rw [if_neg (fun h0 => hne (List.length_eq_zero.mp h0)),
      if_neg (not_lt.mpr hlen)]
    apply ih
    have hfl : ((⌊maxIssues⌋ : ℤ) : ℚ) < maxIssues :=
      lt_of_le_of_ne (Int.floor_le maxIssues) hfrac
    have hacc : (acc.length : ℤ) ≤ ⌊maxIssues⌋ :=
      Int.le_floor.mpr (by exact_mod_cast hlt.le)
    have hepos : (0 : ℚ) < maxIssues - (acc.length : ℚ) := by linarith
    have hjs : jsToInt (maxIssues - (acc.length : ℚ)) =
        ⌊maxIssues - (acc.length : ℚ)⌋ := by
      unfold jsToInt
      rw [if_neg (not_lt.mpr hepos.le)]
    have hfloor : ⌊maxIssues - (acc.length : ℚ)⌋ = ⌊maxIssues⌋ - (acc.length : ℤ) := by
      have h := Int.floor_sub_int maxIssues ((acc.length : ℤ))
      rw [show (((acc.length : ℤ) : ℚ)) = ((acc.length : ℚ)) from by push_cast; rfl] at h
      exact h
    have h0f : 0 ≤ ⌊maxIssues - (acc.length : ℚ)⌋ := Int.floor_nonneg.mpr hepos.le
    have hslice : (jsSliceFrom0 l (maxIssues - (acc.length : ℚ))).length ≤
        (⌊maxIssues⌋ - (acc.length : ℤ)).toNat := by
      unfold jsSliceFrom0
      rw [hjs, if_neg (by omega), List.length_take, hfloor]
      exact min_le_left _ _
    rw [List.length_append]
    have htot : ((acc.length +
        (jsSliceFrom0 l (maxIssues - (acc.length : ℚ))).length : ℕ) : ℤ) ≤
        ⌊maxIssues⌋ := by
      push_cast
      omega
    calc ((acc.length +
          (jsSliceFrom0 l (maxIssues - (acc.length : ℚ))).length : ℕ) : ℚ)
        ≤ ((⌊maxIssues⌋ : ℤ) : ℚ) := by exact_mod_cast htot
      _ < maxIssues := hfl

/-- C4.  (Refuted on the program: code bug.)  `maxIssues` is a JS number
and `syncRepositoryIssues` passes `maxIssues / 2` to the loop, fractional
for every odd option value.  On such budgets — e.g. the call-site budget
`5 / 2 = 2.5` — the loop violates both halves of the claim: against a
provider serving pages of at least `maxIssues / 2` issues (so neither
break fires), `slice` truncates its end and the accumulator sticks at
`⌊maxIssues / 2⌋` while the guard `issues.length < maxIssues / 2` stays
true, so no step allowance makes the loop return — it diverges instead of
stopping within `⌈budget / pageSize⌉ + 1` iterations. -/
theorem claim_C4_fractional_budget_spins (getPage : Nat → Option (List GitHubIssue))
    (state : IssueState) (maxIssues : Nat) (hodd : maxIssues % 2 = 1)
    (hpage : ∀ p, ∃ l, getPage p = some l ∧ l ≠ [] ∧ maxIssues ≤ 2 * l.length) :
    ∀ fuel, fetchIssuesWithPaginationJS getPage state ((maxIssues : ℚ) / 2) fuel =
      none := by
  intro fuel
  unfold fetchIssuesWithPaginationJS
  have hfrac : ((⌊(maxIssues : ℚ) / 2⌋ : ℤ) : ℚ) ≠ (maxIssues : ℚ) / 2 := by
    intro heq
    have h2 : ((2 * ⌊(maxIssues : ℚ) / 2⌋ : ℤ) : ℚ) = ((maxIssues : ℕ) : ℚ) := by
      push_cast
      rw [heq]
      ring
    have h3 : (2 * ⌊(maxIssues : ℚ) / 2⌋ : ℤ) = ((maxIssues : ℕ) : ℤ) := by
      exact_mod_cast h2
    omega
  refine fetchLoopJS_spins getPage state ((maxIssues : ℚ) / 2)
    (min 100 ((maxIssues : ℚ) / 2)) hfrac ?_ fuel [] 0 [] ?_
  · intro p
    obtain ⟨l, hl, hne, hlen⟩ := hpage p
    refine ⟨l, hl, hne, ?_⟩
    refine le_trans (min_le_right 100 ((maxIssues : ℚ) / 2)) ?_
    rw [div_le_iff₀ (by norm_num : (0 : ℚ) < 2)]
    have hc : ((maxIssues : ℕ) : ℚ) ≤ 2 * ((l.length : ℕ) : ℚ) := by
      exact_mod_cast hlen
    linarith
  · have hpos : 0 < maxIssues := by omega
    simp only [List.length_nil, Nat.cast_zero]
    apply div_pos
    · exact_mod_cast hpos
    · norm_num

theorem fetchLoop_requests_page_one (getPage : Nat → Option (List GitHubIssue))
    (state : IssueState) (maxIssues perPage : Nat) :
    ∀ (n : Nat) (acc : List GitHubIssue) (iter : Nat) (reqs : List PageRequest),
      maxIssues - acc.length ≤ n →
      ∀ r ∈ (fetchLoop getPage state maxIssues perPage acc iter reqs).requests,
        r ∈ reqs ∨ r = ⟨state, 50, 1⟩ := by
  intro n
  induction n with
  | zero =>
    intro acc iter reqs hn r hr
    rw [fetchLoop, dif_neg (by omega)] at hr
    exact Or.inl hr
  | succ n ih =>
    intro acc iter reqs hn r hr
    rw [fetchLoop] at hr
    by_cases hlt : acc.length < maxIssues
    · rw [dif_pos hlt] at hr
      simp only at hr
      cases hgp : getPage iter with
      | none =>
        rw [hgp] at hr
        simp only at hr
        rcases List.mem_append.1 hr with h | h
        · exact Or.inl h
        · simp at h; exact Or.inr h
      | some pageIssues =>
        rw [hgp] at hr
        simp only at hr
        by_cases hz : pageIssues.length = 0
        · rw [if_pos hz] at hr
          rcases List.mem_append.1 hr with h | h
          · exact Or.inl h
          · simp at h; exact Or.inr h
        · rw [if_neg hz] at hr
          by_cases hshort : pageIssues.length < perPage
          · rw [if_pos hshort] at hr
            rcases List.mem_append.1 hr with h | h
            · exact Or.inl h
            · simp at h; exact Or.inr h
          · rw [if_neg hshort] at hr
            have hlen : (acc ++ pageIssues.take (maxIssues - acc.length)).length =
                acc.length + min (maxIssues - acc.length) pageIssues.length := by
              simp
            rcases ih _ (iter + 1) _ (by omega) r hr with h | h
            · rcases List.mem_append.1 h with h' | h'
              · exact Or.inl h'
              · simp at h'; exact Or.inr h'
            · exact Or.inr h
    · rw [dif_neg hlt] at hr
      exact Or.inl hr

theorem fetchLoop_issues_mem (getPage : Nat → Option (List GitHubIssue))
    (state : IssueState) (maxIssues perPage : Nat) :
    ∀ (n : Nat) (acc : List GitHubIssue) (iter : Nat) (reqs : List PageRequest),
      maxIssues - acc.length ≤ n →
      ∀ x ∈ (fetchLoop getPage state maxIssues perPage acc iter reqs).issues,
        x ∈ acc ∨ ∃ m p, getPage m = some p ∧ x ∈ p := by
  intro n
  induction n with
  | zero =>
    intro acc iter reqs hn x hx
    rw [fetchLoop, dif_neg (by omega)] at hx
    exact Or.inl hx
  | succ n ih =>
    intro acc iter reqs hn x hx
    rw [fetchLoop] at hx
    by_cases hlt : acc.length < maxIssues
    · rw [dif_pos hlt] at hx
      simp only at hx
      cases hgp : getPage iter with
      | none => rw [hgp] at hx; exact Or.inl hx
      | some pageIssues =>
        rw [hgp] at hx
        simp only at hx
        by_cases hz : pageIssues.length = 0
        · rw [if_pos hz] at hx; exact Or.inl hx
        · rw [if_neg hz] at hx
          have hsplit : ∀ y, y ∈ acc ++ pageIssues.take (maxIssues - acc.length) →
              y ∈ acc ∨ ∃ m p, getPage m = some p ∧ y ∈ p := by
            intro y hy
            rcases List.mem_append.1 hy with h | h
            · exact Or.inl h
            · exact Or.inr ⟨iter, pageIssues, hgp, List.mem_of_mem_take h⟩
          by_cases hshort : pageIssues.length < perPage
          · rw [if_pos hshort] at hx
            exact hsplit x hx
          · rw [if_neg hshort] at hx
            have hlen : (acc ++ pageIssues.take (maxIssues - acc.length)).length =
                acc.length + min (maxIssues - acc.length) pageIssues.length := by
              simp
            rcases ih _ (iter + 1) _ (by omega) x hx with h | h
            · exact hsplit x h
            · exact Or.inr h
    · rw [dif_neg hlt] at hx
      exact Or.inl hx

theorem fetchLoop_first_iteration (P : List GitHubIssue) (state : IssueState)
    (maxIssues perPage : Nat) (h1 : 0 < maxIssues) (h2 : P ≠ [])
    (h3 : maxIssues ≤ P.length ∨ P.length < perPage) :
    fetchLoop (fun _ => some P) state maxIssues perPage [] 0 [] =
      ⟨P.take maxIssues, 1, [⟨state, 50, 1⟩]⟩ := by
  rw [fetchLoop, dif_pos (by simpa using h1)]
  simp only
  rw [if_neg (by simpa [List.length_eq_zero] using h2)]
  by_cases hshort : P.length < perPage
  · rw [if_pos hshort]
    simp
  · rw [if_neg hshort]
    have hbig : maxIssues ≤ P.length := by tauto
    rw [fetchLoop, dif_neg (by simp; omega)]
    simp

/-- A provider issue used to populate concrete pages. -/
def sampleIssue : GitHubIssue :=
  ⟨1, 1, "issue", none, .opened, "", "", "", []⟩

/-- Constant provider for the C4 witness: every call returns the same page
of three issues, so no break of the loop ever fires at budget `2.5`. -/
def oracleC4 : Nat → Option (List GitHubIssue) :=
  fun _ => some [sampleIssue, sampleIssue, sampleIssue]

/-- Witness for C4 at the failing input: option `maxIssues = 5` with both
states synced gives the loop the budget `5 / 2 = 2.5`; against three-issue
pages no step allowance makes the loop return. -/
theorem claim_C4_fractional_budget_spins_witness :
    (5 % 2 = 1 ∧
      ∀ p : Nat, ∃ l, oracleC4 p = some l ∧ l ≠ [] ∧ 5 ≤ 2 * l.length) ∧
    ∀ fuel, fetchIssuesWithPaginationJS oracleC4 IssueState.opened
      (((5 : ℕ) : ℚ) / 2) fuel = none :=
  ⟨⟨by decide, fun p => ⟨[sampleIssue, sampleIssue, sampleIssue], rfl,
      List.cons_ne_nil _ _, by decide⟩⟩,
   claim_C4_fractional_budget_spins oracleC4 IssueState.opened 5 (by decide)
     (fun p => ⟨[sampleIssue, sampleIssue, sampleIssue], rfl,
       List.cons_ne_nil _ _, by decide⟩)⟩

/-- C5 (code-bug evidence).  `fetchIssuesWithPagination` increments its local
`page` counter but never passes it to `GitHubService.getIssues`, whose
`listForRepo` call carries no `page` field — octokit then requests page 1 on
every iteration.  First conjunct: every provider request issued by any run
carries page parameter 1.  Remaining conjuncts: a concrete run (full pages of
100, budget 200) that executes two loop iterations and issues two identical
page-1 requests, where the specification demands pages 1 and 2. -/
theorem claim_C5_page_parameter_constant :
    (∀ (getPage : Nat → Option (List GitHubIssue)) (state : IssueState) (maxIssues : Nat),
      ∀ r ∈ (fetchIssuesWithPagination getPage state maxIssues).requests, r.pageParam = 1) ∧
    (fetchIssuesWithPagination (fun _ => some (List.replicate 100 sampleIssue))
      .opened 200).iterations = 2 ∧
    (fetchIssuesWithPagination (fun _ => some (List.replicate 100 sampleIssue))
      .opened 200).requests = [⟨.opened, 50, 1⟩, ⟨.opened, 50, 1⟩] := by
  refine ⟨?_, ?_, ?_⟩
  · intro getPage state maxIssues r hr
    rcases fetchLoop_requests_page_one getPage state maxIssues (min 100 maxIssues)
      maxIssues [] 0 [] (by simp) r (by simpa [fetchIssuesWithPagination] using hr) with h | h
    · simp at h
    · rw [h]
  · unfold fetchIssuesWithPagination
    rw [fetchLoop]
    norm_num
    rw [fetchLoop]
    norm_num
    rw [fetchLoop]
    norm_num
  · unfold fetchIssuesWithPagination
    rw [fetchLoop]
    norm_num
    rw [fetchLoop]
    norm_num
    rw [fetchLoop]
    norm_num

/-- Remote issue table of the C2 scenario: 6 open and 20 closed issues. -/
def remoteC2 : IssueState → List GitHubIssue
  | .opened =>
    [⟨1, 1, "o1", none, .opened, "", "", "", []⟩,
     ⟨2, 2, "o2", none, .opened, "", "", "", []⟩,
     ⟨3, 3, "o3", none, .opened, "", "", "", []⟩,
     ⟨4, 4, "o4", none, .opened, "", "", "", []⟩,
     ⟨5, 5, "o5", none, .opened, "", "", "", []⟩,
     ⟨6, 6, "o6", none, .opened, "", "", "", []⟩]
  | .closed =>
    [⟨101, 11, "c1", none, .closed, "", "", "", []⟩,
     ⟨102, 12, "c2", none, .closed, "", "", "", []⟩,
     ⟨103, 13, "c3", none, .closed, "", "", "", []⟩,
     ⟨104, 14, "c4", none, .closed, "", "", "", []⟩,
     ⟨105, 15, "c5", none, .closed, "", "", "", []⟩,
     ⟨106, 16, "c6", none, .closed, "", "", "", []⟩,
     ⟨107, 17, "c7", none, .closed, "", "", "", []⟩,
     ⟨108, 18, "c8", none, .closed, "", "", "", []⟩,
     ⟨109, 19, "c9", none, .closed, "", "", "", []⟩,
     ⟨110, 20, "c10", none, .closed, "", "", "", []⟩,
     ⟨111, 21, "c11", none, .closed, "", "", "", []⟩,
     ⟨112, 22, "c12", none, .closed, "", "", "", []⟩,
     ⟨113, 23, "c13", none, .closed, "", "", "", []⟩,
     ⟨114, 24, "c14", none, .closed, "", "", "", []⟩,
     ⟨115, 25, "c15", none, .closed, "", "", "", []⟩,
     ⟨116, 26, "c16", none, .closed, "", "", "", []⟩,
     ⟨117, 27, "c17", none, .closed, "", "", "", []⟩,
     ⟨118, 28, "c18", none, .closed, "", "", "", []⟩,
     ⟨119, 29, "c19", none, .closed, "", "", "", []⟩,
     ⟨120, 30, "c20", none, .closed, "", "", "", []⟩]

/-- Repository of the C2 scenario. -/
def repoC2 : GitHubRepository :=
  ⟨7, "repo", "owner/repo", none, "", "", "main"⟩

theorem syncC2_counts :
    (((syncRepositoryIssues remoteC2 repoC2 ⟨true, true, 10⟩ ⟨[], [], []⟩ "now").issues.filter
        (fun i => i.repoId == "7" && i.state == IssueState.opened)).length = 5) ∧
    (((syncRepositoryIssues remoteC2 repoC2 ⟨true, true, 10⟩ ⟨[], [], []⟩ "now").issues.filter
        (fun i => i.repoId == "7" && i.state == IssueState.closed)).length = 5) := by
  have hopen : fetchIssuesWithPagination
      (fun _ => some (GitHubService.getIssues remoteC2 .opened)) .opened 5 =
      ⟨(GitHubService.getIssues remoteC2 .opened).take 5, 1, [⟨.opened, 50, 1⟩]⟩ := by
    unfold fetchIssuesWithPagination
    exact fetchLoop_first_iteration _ _ _ _ (by decide) (by decide) (by decide)
  have hclosed : fetchIssuesWithPagination
      (fun _ => some (GitHubService.getIssues remoteC2 .closed)) .closed 5 =
      ⟨(GitHubService.getIssues remoteC2 .closed).take 5, 1, [⟨.closed, 50, 1⟩]⟩ := by
    unfold fetchIssuesWithPagination
    exact fetchLoop_first_iteration _ _ _ _ (by decide) (by decide) (by decide)
  unfold syncRepositoryIssues
  norm_num
  rw [hopen, hclosed]
  decide

/-- C2 (counterexample).  With `syncOpen = syncClosed = true` and
`maxIssues = 10` against a remote holding 6 open and 20 closed issues, the
persisted set does **not** contain 6 open issues: the open-state budget is
`maxIssues / 2 = 5`, so only 5 of the 6 open issues are persisted. -/
theorem claim_C2_counterexample :
    ¬ ((((syncRepositoryIssues remoteC2 repoC2 ⟨true, true, 10⟩ ⟨[], [], []⟩ "now").issues.filter
          (fun i => i.repoId == "7" && i.state == IssueState.opened)).length = 6) ∧
       (((syncRepositoryIssues remoteC2 repoC2 ⟨true, true, 10⟩ ⟨[], [], []⟩ "now").issues.filter
          (fun i => i.repoId == "7" && i.state == IssueState.closed)).length ≤ 5)) := by
  intro h
  have h5 := syncC2_counts.1
  omega

/-- C2 (amended).  Same scenario: exactly 5 open and exactly 5 closed issues
are persisted — the budget `maxIssues / 2 = 5` caps each state, including
the open state that the remote could have served 6 of. -/
theorem claim_C2_amended_counts :
    (((syncRepositoryIssues remoteC2 repoC2 ⟨true, true, 10⟩ ⟨[], [], []⟩ "now").issues.filter
        (fun i => i.repoId == "7" && i.state == IssueState.opened)).length = 5) ∧
    (((syncRepositoryIssues remoteC2 repoC2 ⟨true, true, 10⟩ ⟨[], [], []⟩ "now").issues.filter
        (fun i => i.repoId == "7" && i.state == IssueState.closed)).length = 5) :=
  syncC2_counts

/-- Previously cached open issue of the C3 scenario. -/
def cachedOpenIssueC3 : GitHubIssueDB :=
  ⟨501, "9", 1, "cached open", none, .opened, "", "", "", none, "", "", [], [], none, 0, "t0"⟩

/-- Repository of the C3 scenario. -/
def repoC3 : GitHubRepository :=
  ⟨9, "repo", "o/r", none, "", "", "main"⟩

/-- Remote issue table of the C3 scenario: one closed issue, no open ones. -/
def remoteC3 : IssueState → List GitHubIssue
  | .opened => []
  | .closed => [⟨601, 2, "closed issue", none, .closed, "", "", "", []⟩]

/-- Cache state before the C3 closed-only sync: one cached open issue. -/
def dbC3 : GitHubDatabase :=
  ⟨[], [], [cachedOpenIssueC3]⟩

/-- C3 (counterexample).  A closed-only sync (`syncOpen = false`,
`syncClosed = true`) deletes the previously cached open issue:
`saveIssues` clears the repository's whole issue table before inserting the
freshly fetched closed issues. -/
theorem claim_C3_counterexample :
    cachedOpenIssueC3 ∈ dbC3.issues ∧ cachedOpenIssueC3.state = .opened ∧
    cachedOpenIssueC3.repoId = toString repoC3.id ∧
    cachedOpenIssueC3 ∉
      (syncRepositoryIssues remoteC3 repoC3 ⟨false, true, 100⟩ dbC3 "now").issues := by
  refine ⟨by decide, by decide, by decide, ?_⟩
  have hclosed : fetchIssuesWithPagination
      (fun _ => some (GitHubService.getIssues remoteC3 .closed)) .closed (100 / 2) =
      ⟨(GitHubService.getIssues remoteC3 .closed).take (100 / 2), 1, [⟨.closed, 50, 1⟩]⟩ := by
    unfold fetchIssuesWithPagination
    exact fetchLoop_first_iteration _ _ _ _ (by decide) (by decide) (by decide)
  unfold syncRepositoryIssues
  dsimp only
  rw [hclosed]
  decide

/-- C3 (amended).  The bulk replace of `syncRepositoryIssues` is scoped to
the whole repository, so after a closed-only sync every issue cached for
that repository is closed (the freshly synced ones); previously cached open
issues are deleted, not preserved. -/
theorem claim_C3_amended_full_replace (remote : IssueState → List GitHubIssue)
    (repo : GitHubRepository) (maxIssues : Nat) (db : GitHubDatabase) (now : String)
    (hstate : ∀ i ∈ remote .closed, i.state = .closed) :
    ∀ i ∈ (syncRepositoryIssues remote repo ⟨false, true, maxIssues⟩ db now).issues,
      i.repoId = toString repo.id → i.state = .closed := by
  intro i hi hrep
  unfold syncRepositoryIssues at hi
  dsimp only at hi
  simp only [GitHubDatabase.saveIssues] at hi
  rcases List.mem_append.1 hi with h | h
  · have := List.of_mem_filter h
    simp only [bne_iff_ne, ne_eq] at this
    exact absurd hrep this
  · rw [if_neg Bool.false_ne_true, if_pos trivial] at h
    simp only [List.map_nil, List.nil_append, List.mem_map] at h
    obtain ⟨c, hc, rfl⟩ := h
    rcases fetchLoop_issues_mem
        (fun _ => some (GitHubService.getIssues remote .closed)) .closed
        (maxIssues / 2) (min 100 (maxIssues / 2)) (maxIssues / 2) [] 0 []
        (by simp) c (by simpa [fetchIssuesWithPagination] using hc) with h' | h'
    · simp at h'
    · obtain ⟨m, p, hp, hcp⟩ := h'
      have hpe : p = GitHubService.getIssues remote .closed := by
        simpa using hp.symm
      subst hpe
      have : c ∈ remote .closed := List.mem_of_mem_take hcp
      exact hstate c this

/-- Witness for C3 (amended) at the concrete C3 scenario. -/
theorem claim_C3_amended_full_replace_witness :
    (∀ i ∈ remoteC3 .closed, i.state = .closed) ∧
    (∀ i ∈ (syncRepositoryIssues remoteC3 repoC3 ⟨false, true, 100⟩ dbC3 "now").issues,
      i.repoId = toString repoC3.id → i.state = .closed) :=
  ⟨by decide,
   claim_C3_amended_full_replace remoteC3 repoC3 100 dbC3 "now" (by decide)⟩

/-! ## Proofs: file-sync failure path (C8) and content fallback (C9) -/

theorem find?_repo_cons (p : GitHubRepo → Bool) (a : GitHubRepo)
    (l : List GitHubRepo) :
    (a :: l).find? p = if p a then some a else l.find? p := by
  by_cases h : p a <;> simp [List.find?, h]

theorem find?_map_replace (l : List GitHubRepo) (r : GitHubRepo)
    (f : GitHubRepo → GitHubRepo)
    (hid : ∀ x, (x.id == r.id) = true → ((f x).id == r.id) = true) :
    (l.map (fun x => if x.id == r.id then f x else x)).find? (fun x => x.id == r.id) =
      (l.find? (fun x => x.id == r.id)).map f := by
  induction l with
  | nil => simp
  | cons a l ih =>
    simp only [List.map_cons]
    by_cases ha : (a.id == r.id) = true
    · rw [if_pos ha, find?_repo_cons, find?_repo_cons, if_pos (hid a ha), if_pos ha]
      simp
    · rw [if_neg ha, find?_repo_cons, find?_repo_cons, if_neg ha, if_neg ha]
      exact ih

theorem find?_append_singleton (l : List GitHubRepo) (r : GitHubRepo)
    (h : l.any (fun x => x.id == r.id) = false) :
    (l ++ [r]).find? (fun x => x.id == r.id) = some r := by
  induction l with
  | nil => simp
  | cons a l ih =>
    simp only [List.any_cons, Bool.or_eq_false_iff] at h
    rw [List.cons_append, find?_repo_cons, if_neg (by simp [h.1])]
    exact ih h.2

theorem saveRepo_then_update_status (db : GitHubDatabase) (r : GitHubRepo)
    (st : SyncStatus) (tf : Option Nat) (now : String) :
    (((db.saveRepo r).updateRepoSyncStatus r.id st tf now).getRepoSyncStatus r.id) =
      some { r with syncStatus := st, lastSynced := now,
                    totalFiles := tf.getD r.totalFiles } := by
  have hsave : (db.saveRepo r).getRepoSyncStatus r.id = some r := by
    unfold GitHubDatabase.saveRepo GitHubDatabase.getRepoSyncStatus
    by_cases h : db.repos.any (fun x => x.id == r.id)
    · rw [if_pos h]
      have hmr := find?_map_replace db.repos r (fun _ => r) (fun _ _ => by simp)
      simp only at hmr
      rw [hmr]
      cases hx : db.repos.find? (fun x => x.id == r.id) with
      | none =>
        have : ∃ x ∈ db.repos, (x.id == r.id) = true := List.any_eq_true.1 h
        have hs : (db.repos.find? (fun x => x.id == r.id)).isSome := by
          rw [List.find?_isSome]
          exact this
        rw [hx] at hs
        simp at hs
      | some x => rfl
    · rw [if_neg h]
      exact find?_append_singleton db.repos r (by simpa using h)
  unfold GitHubDatabase.updateRepoSyncStatus GitHubDatabase.getRepoSyncStatus
  unfold GitHubDatabase.getRepoSyncStatus at hsave
  generalize hl : (db.saveRepo r).repos = l at hsave
  clear hl
  induction l with
  | nil => simp at hsave
  | cons a l ih =>
    rw [find?_repo_cons] at hsave
    simp only [List.map_cons]
    rw [find?_repo_cons]
    by_cases ha : (a.id == r.id) = true
    · rw [if_pos ha] at hsave
      cases hsave
      rw [if_pos ha, if_pos (show _ = true from ha)]
    · rw [if_neg ha] at hsave
      rw [if_neg ha, if_neg ha]
      exact ih hsave

/-- C8.  When the initial repository-tree fetch fails, `syncRepository`
aborts immediately: the repository record carries sync status `error`, the
single (hence terminal) progress event it emitted has status `error`, and
the exception is rethrown to the caller. -/
theorem claim_C8_fetch_failure_aborts (e : String) (repo : GitHubRepository)
    (db : GitHubDatabase) (now : String) :
    (syncRepository (.error e) repo db now).1 = .error e ∧
    ((syncRepository (.error e) repo db now).2.1.getRepoSyncStatus
        (toString repo.id)).map (fun r => r.syncStatus) = some .error ∧
    (syncRepository (.error e) repo db now).2.2.getLast? =
      some ⟨0, 0, "", .error, some e⟩ := by
  refine ⟨rfl, ?_, rfl⟩
  show ((((db.saveRepo ⟨toString repo.id, repo.name, repo.full_name,
      repo.default_branch, now, 0, .syncing⟩).updateRepoSyncStatus (toString repo.id)
      .error none now).getRepoSyncStatus (toString repo.id)).map
      (fun r => r.syncStatus)) = some .error
  rw [saveRepo_then_update_status db
    ⟨toString repo.id, repo.name, repo.full_name, repo.default_branch, now, 0, .syncing⟩
    .error none now]
  rfl

/-- C9.  `getFileContent` with a truthy specific ref whose fetch returns
not-found retries exactly once, against the repository's default branch (the
attempted-ref trace is `[ref, defaultBranch]`); it returns the default-branch
content when that second fetch succeeds, and raises the final error only
when the default-branch attempt also misses. -/
theorem claim_C9_ref_fallback (getContent : Option String → HttpContentResult)
    (r d path : String) (hr : r ≠ "") (hd : d ≠ "")
    (h404 : getContent (some r) = .notFound) :
    (getFileContent getContent (.ok d) (some r) path).2 = [some r, some d] ∧
    (∀ c, getContent (some d) = .success (some c) →
      (getFileContent getContent (.ok d) (some r) path).1 = .ok c) ∧
    (getContent (some d) = .notFound →
      (getFileContent getContent (.ok d) (some r) path).1 =
        .error "Failed to fetch file content: File not found in the repository") := by
  have ht : refTruthy (some r) = true := by simp [refTruthy, hr]
  have hfc : fetchContent getContent (some r) = .nullResult := by
    unfold fetchContent
    rw [h404, ht]
    rfl
  refine ⟨?_, ?_, ?_⟩
  · unfold getFileContent
    rw [ht]
    simp only [if_true, hfc]
    cases hfd : fetchContent getContent (some d) <;> simp
  · intro c hc
    unfold getFileContent
    rw [ht]
    simp only [if_true, hfc]
    unfold fetchContent
    rw [hc]
  · intro hc
    unfold getFileContent
    rw [ht]
    simp only [if_true, hfc]
    unfold fetchContent
    rw [hc]
    have htd : refTruthy (some d) = true := by simp [refTruthy, hd]
    rw [htd]
    simp [getFileContentCatch]

/-- Oracle for the C9 witness: content exists only on branch `main`. -/
def oracleC9 : Option String → HttpContentResult :=
  fun ref => if ref == some "main" then .success (some "file text") else .notFound

/-- Witness for C9: ref `sha1` misses, default branch `main` hits. -/
theorem claim_C9_ref_fallback_witness :
    ("sha1" ≠ "" ∧ "main" ≠ "" ∧ oracleC9 (some "sha1") = .notFound) ∧
    ((getFileContent oracleC9 (.ok "main") (some "sha1") "src/a.ts").2 =
        [some "sha1", some "main"] ∧
      (∀ c, oracleC9 (some "main") = .success (some c) →
        (getFileContent oracleC9 (.ok "main") (some "sha1") "src/a.ts").1 = .ok c) ∧
      (oracleC9 (some "main") = .notFound →
        (getFileContent oracleC9 (.ok "main") (some "sha1") "src/a.ts").1 =
          .error "Failed to fetch file content: File not found in the repository")) :=
  ⟨⟨by decide, by decide, by decide⟩,
   claim_C9_ref_fallback oracleC9 "sha1" "main" "src/a.ts"
     (by decide) (by decide) (by decide)⟩

/-! ## Proofs: tree reconstruction (C1, C10)

First the single-pass fold is characterized: after `k` entries the state is
exactly `⟨treeUpTo k, childUpTo k, pathMapUpTo k⟩`, where attachment is
decided by `attachIdx` (the latest map binding of the parent path among
positions `≤ i`, accepted only when it is a directory). -/

theorem lookupPath_pathMapUpTo (sorted : List GitHubFile) :
    ∀ k p, lookupPath (pathMapUpTo sorted k) p = lookupSpec sorted k p := by
  intro k
  induction k with
  | zero => intro p; rfl
  | succ k ih =>
    intro p
    show lookupPath ((_, _, _) :: pathMapUpTo sorted k) p = _
    unfold lookupPath lookupSpec
    split
    · rfl
    · exact ih p

theorem lookupSpec_some (sorted : List GitHubFile) :
    ∀ k p j d, lookupSpec sorted k p = some (j, d) →
      j < k ∧ (sorted.getD j dummyFile).path = p ∧
        d = decide ((sorted.getD j dummyFile).type = .dir) := by
  intro k
  induction k with
  | zero => intro p j d h; simp [lookupSpec] at h
  | succ k ih =>
    intro p j d h
    unfold lookupSpec at h
    split at h
    · cases h
      exact ⟨Nat.lt_succ_self k, by assumption, rfl⟩
    · obtain ⟨h1, h2, h3⟩ := ih p j d h
      exact ⟨Nat.lt_succ_of_lt h1, h2, h3⟩

theorem lookupSpec_unique (sorted : List GitHubFile) (p : String) (j : Nat)
    (hj : (sorted.getD j dummyFile).path = p) :
    ∀ k, j < k → (∀ m, m < k → (sorted.getD m dummyFile).path = p → m = j) →
      lookupSpec sorted k p =
        some (j, decide ((sorted.getD j dummyFile).type = .dir)) := by
  intro k
  induction k with
  | zero => intro h _; omega
  | succ k ih =>
    intro hjk huniq
    unfold lookupSpec
    by_cases hk : (sorted.getD k dummyFile).path = p
    · rw [if_pos hk]
      have hkj : k = j := huniq k (Nat.lt_succ_self k) hk
      subst hkj
      rfl
    · rw [if_neg hk]
      have hjk' : j < k := by
        rcases Nat.lt_succ_iff_lt_or_eq.1 hjk with h | h
        · exact h
        · subst h; exact absurd hj hk
      exact ih hjk' (fun m hm => huniq m (Nat.lt_succ_of_lt hm))

theorem attachIdx_root (sorted : List GitHubFile) (i : Nat)
    (h : (sorted.getD i dummyFile).parentPath = "" ∨
      (sorted.getD i dummyFile).parentPath = "/") :
    attachIdx sorted i = none := by
  unfold attachIdx
  rw [if_pos h]

theorem attachIdx_eq_some (sorted : List GitHubFile) (i j : Nat)
    (h : attachIdx sorted i = some j) :
    ¬((sorted.getD i dummyFile).parentPath = "" ∨
        (sorted.getD i dummyFile).parentPath = "/") ∧
      j ≤ i ∧
      (sorted.getD j dummyFile).path = (sorted.getD i dummyFile).parentPath ∧
      (sorted.getD j dummyFile).type = .dir := by
  unfold attachIdx at h
  by_cases hroot : (sorted.getD i dummyFile).parentPath = "" ∨
      (sorted.getD i dummyFile).parentPath = "/"
  · rw [if_pos hroot] at h; cases h
  · rw [if_neg hroot] at h
    split at h
    · rename_i j' heq
      cases h
      obtain ⟨h1, h2, h3⟩ := lookupSpec_some sorted (i + 1) _ j true heq
      refine ⟨hroot, by omega, h2, ?_⟩
      simpa using h3.symm
    · cases h

theorem isRootEntry_true_iff (f : GitHubFile) :
    isRootEntry f = true ↔ (f.parentPath = "" ∨ f.parentPath = "/") := by
  simp [isRootEntry]

theorem isRootEntry_false_iff (f : GitHubFile) :
    isRootEntry f = false ↔ ¬(f.parentPath = "" ∨ f.parentPath = "/") := by
  simp [isRootEntry, not_or]

theorem treeUpTo_succ (sorted : List GitHubFile) (k : Nat) :
    treeUpTo sorted (k + 1) = treeUpTo sorted k ++
      (if isRootEntry (sorted.getD k dummyFile) then [k] else []) := by
  unfold treeUpTo
  rw [List.range_succ, List.filter_append, List.filter_cons, List.filter_nil]

theorem childUpTo_succ (sorted : List GitHubFile) (k j : Nat) :
    childUpTo sorted (k + 1) j = childUpTo sorted k j ++
      (if attachIdx sorted k == some j then [k] else []) := by
  unfold childUpTo
  rw [List.range_succ, List.filter_append, List.filter_cons, List.filter_nil]

theorem buildStep_eq (sorted : List GitHubFile) (k : Nat) :
    buildStep ⟨treeUpTo sorted k, fun j => childUpTo sorted k j, pathMapUpTo sorted k⟩
        (k, sorted.getD k dummyFile) =
      ⟨treeUpTo sorted (k + 1), fun j => childUpTo sorted (k + 1) j,
        pathMapUpTo sorted (k + 1)⟩ := by
  have hpm : (((sorted.getD k dummyFile).path, k,
      decide ((sorted.getD k dummyFile).type = .dir)) : String × Nat × Bool) ::
        pathMapUpTo sorted k = pathMapUpTo sorted (k + 1) := rfl
  unfold buildStep
  dsimp only
  rw [hpm]
  by_cases hroot : (sorted.getD k dummyFile).parentPath = "" ∨
      (sorted.getD k dummyFile).parentPath = "/"
  · rw [if_pos hroot]
    have hatt : attachIdx sorted k = none := attachIdx_root sorted k hroot
    have h1 : treeUpTo sorted k ++ [k] = treeUpTo sorted (k + 1) := by
      rw [treeUpTo_succ, if_pos ((isRootEntry_true_iff _).2 hroot)]
    have h2 : (fun j => childUpTo sorted k j) = fun j => childUpTo sorted (k + 1) j := by
      funext j
      rw [childUpTo_succ, hatt]
      simp
    rw [h1, h2]
  · rw [if_neg hroot]
    have hatt : attachIdx sorted k =
        (match lookupPath (pathMapUpTo sorted (k + 1))
            (sorted.getD k dummyFile).parentPath with
          | some (j, true) => some j
          | _ => none) := by
      unfold attachIdx
      rw [if_neg hroot, lookupPath_pathMapUpTo]
    have hnotroot : isRootEntry (sorted.getD k dummyFile) = false :=
      (isRootEntry_false_iff _).2 hroot
    have h1 : treeUpTo sorted k = treeUpTo sorted (k + 1) := by
      rw [treeUpTo_succ, hnotroot]
      simp
    rcases hlp : lookupPath (pathMapUpTo sorted (k + 1))
        (sorted.getD k dummyFile).parentPath with _ | ⟨j₀, b⟩
    · rw [hlp] at hatt
      dsimp only at hatt
      dsimp only
      have h2 : (fun j => childUpTo sorted k j) = fun j => childUpTo sorted (k + 1) j := by
        funext j
        rw [childUpTo_succ, hatt]
        simp
      rw [h1, h2]
    · rw [hlp] at hatt
      cases b
      · dsimp only at hatt
        dsimp only
        have h2 : (fun j => childUpTo sorted k j) = fun j => childUpTo sorted (k + 1) j := by
          funext j
          rw [childUpTo_succ, hatt]
          simp
        rw [h1, h2]
      · dsimp only at hatt
        dsimp only
        have h2 : (fun j => if j = j₀ then childUpTo sorted k j₀ ++ [k]
            else childUpTo sorted k j) = fun j => childUpTo sorted (k + 1) j := by
          funext j
          rw [childUpTo_succ, hatt]
          by_cases hj : j = j₀
          · subst hj
            simp
          · rw [if_neg hj, if_neg (by simpa using Ne.symm hj)]
            simp
        rw [h1, h2]

theorem buildPass_take (sorted : List GitHubFile) :
    ∀ k, k ≤ sorted.length →
      (sorted.enum.take k).foldl buildStep ⟨[], fun _ => [], []⟩ =
        ⟨treeUpTo sorted k, fun j => childUpTo sorted k j, pathMapUpTo sorted k⟩ := by
  intro k
  induction k with
  | zero =>
    intro _
    simp only [List.take_zero, List.foldl_nil]
    simp [treeUpTo, childUpTo, pathMapUpTo]
  | succ k ih =>
    intro hk
    have hk' : k < sorted.length := hk
    have htake : sorted.enum.take (k + 1) =
        sorted.enum.take k ++ [(k, sorted.getD k dummyFile)] := by
      rw [List.take_succ]
      have h1 : sorted.enum[k]? = some (k, sorted.getD k dummyFile) := by
        rw [List.getElem?_enum, List.getElem?_eq_getElem hk',
          List.getD_eq_getElem sorted dummyFile hk']
        rfl
      rw [h1]
      rfl
    rw [htake, List.foldl_append, ih (le_of_lt hk')]
    simp only [List.foldl_cons, List.foldl_nil]
    exact buildStep_eq sorted k

theorem buildPass_eq (sorted : List GitHubFile) :
    buildPass sorted = ⟨treeUpTo sorted sorted.length,
      fun j => childUpTo sorted sorted.length j,
      pathMapUpTo sorted sorted.length⟩ := by
  have := buildPass_take sorted sorted.length (le_refl _)
  rwa [List.take_of_length_le (by simp)] at this

theorem mkNode_path (sorted : List GitHubFile) (ca : Nat → List Nat)
    (fuel i : Nat) :
    (mkNode sorted ca fuel i).path = (sorted.getD i dummyFile).path := by
  unfold mkNode
  rfl

theorem mkNode_children (sorted : List GitHubFile) (ca : Nat → List Nat)
    (fuel i : Nat) :
    (mkNode sorted ca (fuel + 1) i).children =
      (if (sorted.getD i dummyFile).type = .dir then
        some ((ca i).map (fun c => mkNode sorted ca fuel c)) else none) := by
  rw [mkNode]
  rfl

theorem mem_tree_iff (sorted : List GitHubFile) (r : Nat) :
    r ∈ (buildPass sorted).tree ↔
      r < sorted.length ∧ isRootEntry (sorted.getD r dummyFile) = true := by
  rw [buildPass_eq]
  simp [treeUpTo, List.mem_filter, List.mem_range]

theorem mem_childAcc_iff (sorted : List GitHubFile) (j i : Nat) :
    i ∈ (buildPass sorted).childAcc j ↔
      i < sorted.length ∧ attachIdx sorted i = some j := by
  rw [buildPass_eq]
  simp [childUpTo, List.mem_filter, List.mem_range]

theorem tree_nodup (sorted : List GitHubFile) : (buildPass sorted).tree.Nodup := by
  rw [buildPass_eq]
  exact List.Nodup.filter _ (List.nodup_range _)

theorem childAcc_nodup (sorted : List GitHubFile) (j : Nat) :
    ((buildPass sorted).childAcc j).Nodup := by
  rw [buildPass_eq]
  exact List.Nodup.filter _ (List.nodup_range _)

theorem childAcc_file_empty (sorted : List GitHubFile) (j : Nat)
    (h : (sorted.getD j dummyFile).type ≠ .dir) :
    (buildPass sorted).childAcc j = [] := by
  rw [List.eq_nil_iff_forall_not_mem]
  intro i hi
  rw [mem_childAcc_iff] at hi
  exact h (attachIdx_eq_some sorted i j hi.2).2.2.2

theorem flattenList_eq (l : List FileTreeNode) :
    flattenList l = l.flatMap flattenNode := by
  induction l with
  | nil => rfl
  | cons n ns ih =>
    show flattenNode n ++ flattenList ns = _
    rw [List.flatMap_cons, ih]

theorem nodesList_eq (l : List FileTreeNode) :
    nodesList l = l.flatMap nodesOf := by
  induction l with
  | nil => rfl
  | cons n ns ih =>
    show nodesOf n ++ nodesList ns = _
    rw [List.flatMap_cons, ih]

theorem flatten_mkNode (sorted : List GitHubFile) (ca : Nat → List Nat)
    (hfile : ∀ j, (sorted.getD j dummyFile).type ≠ .dir → ca j = []) :
    ∀ fuel i, flattenNode (mkNode sorted ca fuel i) =
      (reachIdx ca fuel i).map (fun j => (sorted.getD j dummyFile).path) := by
  intro fuel
  induction fuel with
  | zero =>
    intro i
    unfold mkNode reachIdx
    by_cases h : (sorted.getD i dummyFile).type = .dir
    · rw [if_pos h]
      rfl
    · rw [if_neg h]
      rfl
  | succ fuel ih =>
    intro i
    unfold mkNode
    by_cases h : (sorted.getD i dummyFile).type = .dir
    · rw [if_pos h]
      show (sorted.getD i dummyFile).path ::
          flattenList ((ca i).map (fun c => mkNode sorted ca fuel c)) = _
      rw [flattenList_eq]
      unfold reachIdx
      rw [List.map_cons]
      congr 1
      induction ca i with
      | nil => rfl
      | cons c cs ihc =>
        rw [List.map_cons, List.flatMap_cons, List.flatMap_cons, ihc, ih c,
          List.map_append]
    · rw [if_neg h]
      unfold reachIdx
      rw [hfile i h]
      rfl

theorem flattenForest_eq (files : List GitHubFile) :
    flattenForest (buildFileTree files) =
      (forestIdx (sortFiles files)).map
        (fun j => ((sortFiles files).getD j dummyFile).path) := by
  unfold buildFileTree flattenForest forestIdx
  dsimp only
  rw [flattenList_eq]
  have hfile := childAcc_file_empty (sortFiles files)
  induction (buildPass (sortFiles files)).tree with
  | nil => rfl
  | cons r rs ih =>
    rw [List.map_cons, List.flatMap_cons, List.flatMap_cons, ih,
      flatten_mkNode (sortFiles files) _ hfile, List.map_append]

theorem head_mem_reachIdx (ca : Nat → List Nat) (fuel i : Nat) :
    i ∈ reachIdx ca fuel i := by
  cases fuel <;> simp [reachIdx]

/-- If every attachment of `i` is to `i` itself, `i` can only occur in its
own traversal. -/
theorem reachIdx_self_only (ca : Nat → List Nat) (i : Nat)
    (hself : ∀ k, i ∈ ca k → k = i) :
    ∀ fuel t, i ∈ reachIdx ca fuel t → t = i := by
  intro fuel
  induction fuel with
  | zero =>
    intro t ht
    have hit : i = t := by simpa [reachIdx] using ht
    exact hit.symm
  | succ fuel ih =>
    intro t ht
    unfold reachIdx at ht
    rcases List.mem_cons.1 ht with h | h
    · exact h.symm ▸ rfl
    · obtain ⟨c, hc, hr⟩ := List.mem_flatMap.1 h
      have := ih c hr
      subst this
      exact hself t hc

/-- C10.  For an arbitrary input (the invariant may fail), an entry whose
`parentPath` is neither empty nor `'/'` and does not match the path of any
directory entry at an earlier sorted position is silently dropped: the pass
raises no error (`buildFileTree` is total) and the entry's position is
absent from the traversal of the returned forest.  Entries whose
`parentPath` is empty or `'/'` are always pushed to the returned root
list. -/
theorem claim_C10_dangling_dropped (files : List GitHubFile) (i : Nat)
    (hp1 : ((sortFiles files).getD i dummyFile).parentPath ≠ "")
    (hp2 : ((sortFiles files).getD i dummyFile).parentPath ≠ "/")
    (hnd : ∀ j, j < i →
      ¬(((sortFiles files).getD j dummyFile).type = .dir ∧
        ((sortFiles files).getD j dummyFile).path =
          ((sortFiles files).getD i dummyFile).parentPath)) :
    i ∉ forestIdx (sortFiles files) ∧
    ∀ f ∈ files, (f.parentPath = "" ∨ f.parentPath = "/") →
      f.path ∈ (buildFileTree files).map FileTreeNode.path := by
  constructor
  · intro hi
    obtain ⟨r, hr, hreach⟩ := List.mem_flatMap.1 hi
    have hself : ∀ k, i ∈ (buildPass (sortFiles files)).childAcc k → k = i := by
      intro k hk
      rw [mem_childAcc_iff] at hk
      obtain ⟨hroot', hle, hpath, hdir⟩ := attachIdx_eq_some _ _ _ hk.2
      rcases Nat.lt_or_ge k i with hlt | hge
      · exact absurd ⟨hdir, hpath⟩ (hnd k hlt)
      · omega
    have hri := reachIdx_self_only _ i hself _ r hreach
    subst hri
    rw [mem_tree_iff] at hr
    rw [isRootEntry_true_iff] at hr
    rcases hr.2 with h | h
    · exact hp1 h
    · exact hp2 h
  · intro f hf hroot
    have hfs : f ∈ sortFiles files := (List.mergeSort_perm files _).symm.mem_iff.1 hf
    obtain ⟨r, hr, hget⟩ := List.getElem_of_mem hfs
    have hmem : r ∈ (buildPass (sortFiles files)).tree := by
      rw [mem_tree_iff, isRootEntry_true_iff]
      refine ⟨hr, ?_⟩
      rw [List.getD_eq_getElem _ dummyFile hr, hget]
      exact hroot
    unfold buildFileTree
    dsimp only
    refine List.mem_map.2 ⟨mkNode (sortFiles files) (buildPass (sortFiles files)).childAcc
      (sortFiles files).length r, List.mem_map.2 ⟨r, hmem, rfl⟩, ?_⟩
    rw [mkNode_path, List.getD_eq_getElem _ dummyFile hr, hget]

/-- Input of the C10 witness: a root directory `a` and a file `b/c` whose
parent path `b` matches no entry. -/
def filesC10 : List GitHubFile :=
  [⟨"r", "a", "a", .dir, "", none, none, none, "", ""⟩,
   ⟨"r", "b/c", "c", .file, "", none, none, none, "b", ""⟩]

/-- Witness for C10 at the concrete two-entry input. -/
theorem claim_C10_dangling_dropped_witness :
    (((sortFiles filesC10).getD 1 dummyFile).parentPath ≠ "" ∧
     ((sortFiles filesC10).getD 1 dummyFile).parentPath ≠ "/" ∧
     (∀ j, j < 1 →
       ¬(((sortFiles filesC10).getD j dummyFile).type = .dir ∧
         ((sortFiles filesC10).getD j dummyFile).path =
           ((sortFiles filesC10).getD 1 dummyFile).parentPath))) ∧
    (1 ∉ forestIdx (sortFiles filesC10) ∧
     ∀ f ∈ filesC10, (f.parentPath = "" ∨ f.parentPath = "/") →
       f.path ∈ (buildFileTree filesC10).map FileTreeNode.path) := by
  have hs : sortFiles filesC10 = filesC10 := List.mergeSort_of_sorted (by decide)
  have h1 : ((sortFiles filesC10).getD 1 dummyFile).parentPath ≠ "" := by
    rw [hs]; decide
  have h2 : ((sortFiles filesC10).getD 1 dummyFile).parentPath ≠ "/" := by
    rw [hs]; decide
  have h3 : ∀ j, j < 1 →
      ¬(((sortFiles filesC10).getD j dummyFile).type = .dir ∧
        ((sortFiles filesC10).getD j dummyFile).path =
          ((sortFiles filesC10).getD 1 dummyFile).parentPath) := by
    rw [hs]; decide
  exact ⟨⟨h1, h2, h3⟩, claim_C10_dangling_dropped filesC10 1 h1 h2 h3⟩

/-! Order facts for the path comparator. -/

theorem clLe_refl : ∀ l : List Char, clLe l l = true := by
  intro l
  induction l with
  | nil => rfl
  | cons a as ih => simp [clLe, ih]

theorem clLe_total : ∀ a b : List Char, clLe a b = true ∨ clLe b a = true := by
  intro a
  induction a with
  | nil => intro b; left; rfl
  | cons x xs ih =>
    intro b
    cases b with
    | nil => right; rfl
    | cons y ys =>
      by_cases hxy : x = y
      · subst hxy
        rcases ih ys with h | h
        · left; simpa [clLe] using h
        · right; simpa [clLe] using h
      · rcases lt_or_gt_of_ne hxy with h | h
        · left; simp [clLe, hxy, h]
        · right; simp [clLe, Ne.symm hxy, not_lt_of_gt h, h]

theorem clLe_trans : ∀ a b c : List Char,
    clLe a b = true → clLe b c = true → clLe a c = true := by
  intro a
  induction a with
  | nil => intro b c _ _; rfl
  | cons x xs ih =>
    intro b c hab hbc
    cases b with
    | nil => simp [clLe] at hab
    | cons y ys =>
      cases c with
      | nil => simp [clLe] at hbc
      | cons z zs =>
        by_cases hxy : x = y <;> by_cases hyz : y = z
        · subst hxy; subst hyz
          simp only [clLe, if_pos rfl] at hab hbc ⊢
          exact ih ys zs hab hbc
        · subst hxy
          simp only [clLe, if_pos rfl, if_neg hyz] at hbc ⊢
          exact hbc
        · subst hyz
          simp only [clLe, if_neg hxy] at hab ⊢
          exact hab
        · simp only [clLe, if_neg hxy, if_neg hyz, decide_eq_true_eq] at hab hbc
          have hxz : x < z := lt_trans hab hbc
          simp [clLe, ne_of_lt hxz, hxz]

theorem clLe_antisymm : ∀ a b : List Char,
    clLe a b = true → clLe b a = true → a = b := by
  intro a
  induction a with
  | nil =>
    intro b _ hba
    cases b with
    | nil => rfl
    | cons y ys => simp [clLe] at hba
  | cons x xs ih =>
    intro b hab hba
    cases b with
    | nil => simp [clLe] at hab
    | cons y ys =>
      by_cases hxy : x = y
      · subst hxy
        simp only [clLe, if_pos rfl] at hab hba
        rw [ih ys hab hba]
      · simp only [clLe, if_neg hxy, if_neg (Ne.symm hxy), decide_eq_true_eq] at hab hba
        exact absurd hba (not_lt_of_gt hab)

theorem clLe_append (l : List Char) : ∀ r : List Char, clLe l (l ++ r) = true := by
  induction l with
  | nil => intro r; rfl
  | cons x xs ih => intro r; simpa [clLe] using ih r

theorem string_eq_of_data (a b : String) (h : a.data = b.data) : a = b := by
  cases a
  cases b
  dsimp only at h
  rw [h]

theorem localeLe_total (a b : String) : localeLe a b = true ∨ localeLe b a = true :=
  clLe_total a.data b.data

theorem localeLe_trans (a b c : String) (h1 : localeLe a b = true)
    (h2 : localeLe b c = true) : localeLe a c = true :=
  clLe_trans a.data b.data c.data h1 h2

theorem localeLe_antisymm (a b : String) (h1 : localeLe a b = true)
    (h2 : localeLe b a = true) : a = b :=
  string_eq_of_data a b (clLe_antisymm a.data b.data h1 h2)

theorem strictPrefOf_ne (p q : String) (h : strictPrefOf p q) : p ≠ q := by
  intro he
  subst he
  exact lt_irrefl _ h.1

theorem strictPrefOf_localeLe (p q : String) (h : strictPrefOf p q) :
    localeLe p q = true := by
  obtain ⟨hlen, htake⟩ := h
  have hsplit : q.data = p.data ++ q.data.drop p.data.length := by
    conv_lhs => rw [← List.take_append_drop p.data.length q.data]
    rw [htake]
  unfold localeLe
  rw [hsplit]
  exact clLe_append _ _

/-! Ancestor-chain facts used for the multiplicity argument: when every
attachment points to a strictly smaller sorted position, each position has a
unique root ancestor and occurs exactly once in the forest traversal. -/

theorem attachIdx_none_of_ge (sorted : List GitHubFile) (c : Nat)
    (h : sorted.length ≤ c) : attachIdx sorted c = none := by
  apply attachIdx_root
  left
  rw [List.getD_eq_default]
  · rfl
  · exact h

theorem ancRel_le (sorted : List GitHubFile)
    (hlt : ∀ i j, attachIdx sorted i = some j → j < i) :
    ∀ x r, AncRel sorted x r → r ≤ x := by
  intro x r h
  induction h with
  | refl i => exact le_refl i
  | step ha _ ih => exact le_trans ih (le_of_lt (hlt _ _ ha))

theorem ancRel_extend (sorted : List GitHubFile) :
    ∀ x c r, AncRel sorted x c → attachIdx sorted c = some r →
      AncRel sorted x r := by
  intro x c r h
  induction h with
  | refl i => intro ha; exact AncRel.step ha (AncRel.refl r)
  | step ha _ ih => intro hc; exact AncRel.step ha (ih hc)

theorem ancRel_decomp (sorted : List GitHubFile) :
    ∀ x r, AncRel sorted x r →
      x = r ∨ ∃ c, attachIdx sorted c = some r ∧ AncRel sorted x c := by
  intro x r h
  induction h with
  | refl i => exact Or.inl rfl
  | step ha _ ih =>
    rcases ih with he | ⟨c, hc, hanc⟩
    · subst he
      exact Or.inr ⟨_, ha, AncRel.refl _⟩
    · exact Or.inr ⟨c, hc, AncRel.step ha hanc⟩

theorem ancRel_linear (sorted : List GitHubFile) :
    ∀ x a, AncRel sorted x a → ∀ b, AncRel sorted x b →
      AncRel sorted a b ∨ AncRel sorted b a := by
  intro x a h
  induction h with
  | refl i => intro b hb; exact Or.inl hb
  | step ha h ih =>
    intro b hb
    cases hb with
    | refl => exact Or.inr (AncRel.step ha h)
    | step ha' hb' =>
      rw [ha] at ha'
      cases ha'
      exact ih b hb'

theorem ancRel_root_unique (sorted : List GitHubFile) :
    ∀ x r1 r2, AncRel sorted x r1 → attachIdx sorted r1 = none →
      AncRel sorted x r2 → attachIdx sorted r2 = none → r1 = r2 := by
  intro x r1 r2 h1 hn1 h2 hn2
  rcases ancRel_linear sorted x r1 h1 r2 h2 with h | h
  · cases h with
    | refl => rfl
    | step ha _ => rw [hn1] at ha; cases ha
  · cases h with
    | refl => rfl
    | step ha _ => rw [hn2] at ha; cases ha

theorem exists_root_anc (sorted : List GitHubFile)
    (hlt : ∀ i j, attachIdx sorted i = some j → j < i) :
    ∀ x, ∃ r, AncRel sorted x r ∧ attachIdx sorted r = none := by
  intro x
  induction x using Nat.strong_induction_on with
  | _ x ih =>
    cases hax : attachIdx sorted x with
    | none => exact ⟨x, AncRel.refl x, hax⟩
    | some j =>
      obtain ⟨r, hr, hn⟩ := ih j (hlt x j hax)
      exact ⟨r, AncRel.step hax hr, hn⟩

theorem anc_child_unique (sorted : List GitHubFile)
    (hlt : ∀ i j, attachIdx sorted i = some j → j < i) :
    ∀ x r c c', attachIdx sorted c = some r → attachIdx sorted c' = some r →
      AncRel sorted x c → AncRel sorted x c' → c = c' := by
  intro x r c c' hc hc' h h'
  rcases ancRel_linear sorted x c h c' h' with hl | hl
  · cases hl with
    | refl => rfl
    | step ha hb =>
      rw [hc] at ha
      cases ha
      have h1 := ancRel_le sorted hlt _ _ hb
      have h2 := hlt c' r hc'
      omega
  · cases hl with
    | refl => rfl
    | step ha hb =>
      rw [hc'] at ha
      cases ha
      have h1 := ancRel_le sorted hlt _ _ hb
      have h2 := hlt c r hc
      omega

theorem sum_map_single {α : Type} (f : α → Nat) (c : α) :
    ∀ l : List α, c ∈ l → l.Nodup → f c = 1 →
      (∀ c' ∈ l, c' ≠ c → f c' = 0) → (l.map f).sum = 1 := by
  intro l
  induction l with
  | nil => intro hc; cases hc
  | cons a t ih =>
    intro hc hnd h1 h0
    rw [List.map_cons, List.sum_cons]
    rcases List.mem_cons.1 hc with he | ht
    · subst he
      have hz : ∀ v ∈ t.map f, v = 0 := by
        intro v hv
        obtain ⟨b, hb, rfl⟩ := List.mem_map.1 hv
        exact h0 b (List.mem_cons_of_mem _ hb)
          (fun hbc => (List.nodup_cons.1 hnd).1 (hbc ▸ hb))
      rw [List.sum_eq_zero hz, h1]
      rfl
    · have ha0 : f a = 0 :=
        h0 a (List.mem_cons_self _ _) (fun hac => (List.nodup_cons.1 hnd).1 (hac ▸ ht))
      rw [ha0, ih ht (List.nodup_cons.1 hnd).2 h1
        (fun c' hc' => h0 c' (List.mem_cons_of_mem _ hc'))]

theorem count_reachIdx_zero (sorted : List GitHubFile) (ca : Nat → List Nat)
    (hmemca : ∀ j i, i ∈ ca j → attachIdx sorted i = some j) :
    ∀ fuel x r, ¬ AncRel sorted x r → List.count x (reachIdx ca fuel r) = 0 := by
  intro fuel
  induction fuel with
  | zero =>
    intro x r h
    have hxr : x ≠ r := fun he => h (he ▸ AncRel.refl x)
    simp [reachIdx, List.count_cons, hxr]
  | succ fuel ih =>
    intro x r h
    have hxr : x ≠ r := fun he => h (he ▸ AncRel.refl x)
    unfold reachIdx
    rw [List.count_cons, List.count_flatMap]
    have hz : ∀ v ∈ (ca r).map (List.count x ∘ fun c => reachIdx ca fuel c), v = 0 := by
      intro v hv
      obtain ⟨c, hc, rfl⟩ := List.mem_map.1 hv
      refine ih x c ?_
      intro habs
      exact h (ancRel_extend sorted x c r habs (hmemca r c hc))
    rw [List.sum_eq_zero hz]
    simp [Ne.symm hxr]

theorem count_reachIdx_one (sorted : List GitHubFile) (ca : Nat → List Nat)
    (hmemca : ∀ j i, i ∈ ca j ↔ i < sorted.length ∧ attachIdx sorted i = some j)
    (hnd : ∀ j, (ca j).Nodup)
    (hlt : ∀ i j, attachIdx sorted i = some j → j < i) :
    ∀ fuel x r, AncRel sorted x r → x ≤ fuel + r →
      List.count x (reachIdx ca fuel r) = 1 := by
  intro fuel
  induction fuel with
  | zero =>
    intro x r hanc hle
    have hrx : r ≤ x := ancRel_le sorted hlt x r hanc
    have hxr : x = r := by omega
    subst hxr
    simp [reachIdx, List.count_cons]
  | succ fuel ih =>
    intro x r hanc hle
    unfold reachIdx
    rw [List.count_cons, List.count_flatMap]
    by_cases hxr : x = r
    · subst hxr
      have hz : ∀ v ∈ (ca x).map (List.count x ∘ fun c => reachIdx ca fuel c), v = 0 := by
        intro v hv
        obtain ⟨c, hc, rfl⟩ := List.mem_map.1 hv
        have hac : attachIdx sorted c = some x := ((hmemca x c).1 hc).2
        have hxc : x < c := hlt c x hac
        refine count_reachIdx_zero sorted ca (fun j i hi => ((hmemca j i).1 hi).2)
          fuel x c ?_
        intro habs
        have := ancRel_le sorted hlt x c habs
        omega
      rw [List.sum_eq_zero hz]
      simp
    · rcases ancRel_decomp sorted x r hanc with he | ⟨c, hc, hxc⟩
      · exact absurd he hxr
      · have hcn : c < sorted.length := by
          by_contra hge
          rw [attachIdx_none_of_ge sorted c (by omega)] at hc
          cases hc
        have hcmem : c ∈ ca r := (hmemca r c).2 ⟨hcn, hc⟩
        have hrc : r < c := hlt c r hc
        have hsum : ((ca r).map (List.count x ∘ fun c => reachIdx ca fuel c)).sum = 1 := by
          refine sum_map_single _ c (ca r) hcmem (hnd r) ?_ ?_
          · exact ih x c hxc (by omega)
          · intro c' hc' hne
            have hac' : attachIdx sorted c' = some r := ((hmemca r c').1 hc').2
            refine count_reachIdx_zero sorted ca (fun j i hi => ((hmemca j i).1 hi).2)
              fuel x c' ?_
            intro habs
            exact hne (anc_child_unique sorted hlt x r c' c hac' hc habs hxc)
        rw [hsum]
        simp [Ne.symm hxr]

theorem map_range_getD {α β : Type} (d : α) (g : α → β) :
    ∀ l : List α, (List.range l.length).map (fun i => g (l.getD i d)) = l.map g := by
  intro l
  induction l with
  | nil => rfl
  | cons a t ih =>
    rw [List.length_cons, List.range_succ_eq_map, List.map_cons, List.map_cons,
      List.map_map]
    congr 1

theorem filter_map_range_getD {α β : Type} (d : α) (p : α → Bool) (g : α → β) :
    ∀ l : List α,
      ((List.range l.length).filter (fun i => p (l.getD i d))).map
          (fun i => g (l.getD i d)) =
        (l.filter p).map g := by
  intro l
  induction l with
  | nil => rfl
  | cons a t ih =>
    rw [List.length_cons, List.range_succ_eq_map, List.filter_cons]
    by_cases hpa : p ((a :: t).getD 0 d)
    · rw [if_pos hpa, List.map_cons, List.filter_map, List.map_map]
      have hpa' : p a = true := hpa
      rw [List.filter_cons, if_pos hpa', List.map_cons]
      congr 1
    · rw [if_neg hpa, List.filter_map, List.map_map]
      have hpa' : p a = false := by
        rw [← Bool.not_eq_true]
        exact hpa
      rw [List.filter_cons, if_neg (by simp [hpa'])]
      rw [← ih]
      have hfilt : (List.range t.length).filter
            ((fun i => p ((a :: t).getD i d)) ∘ Nat.succ) =
          (List.range t.length).filter (fun i => p (t.getD i d)) := by
        refine List.filter_congr ?_
        intro i _
        rfl
      rw [hfilt]
      refine List.map_congr_left ?_
      intro i _
      rfl

theorem mem_reachIdx_lt (sorted : List GitHubFile) (ca : Nat → List Nat)
    (hmemca : ∀ j i, i ∈ ca j → i < sorted.length) :
    ∀ fuel r, r < sorted.length → ∀ y ∈ reachIdx ca fuel r, y < sorted.length := by
  intro fuel
  induction fuel with
  | zero =>
    intro r hr y hy
    have : y = r := by simpa [reachIdx] using hy
    omega
  | succ fuel ih =>
    intro r hr y hy
    unfold reachIdx at hy
    rcases List.mem_cons.1 hy with he | hm
    · omega
    · obtain ⟨c, hc, hy'⟩ := List.mem_flatMap.1 hm
      exact ih c (hmemca _ _ hc) y hy'

theorem forestIdx_perm_range (sorted : List GitHubFile)
    (hlt : ∀ i j, attachIdx sorted i = some j → j < i)
    (hroot_iff : ∀ i, i < sorted.length →
      (attachIdx sorted i = none ↔ isRootEntry (sorted.getD i dummyFile) = true)) :
    (forestIdx sorted).Perm (List.range sorted.length) := by
  rw [List.perm_iff_count]
  intro x
  by_cases hx : x < sorted.length
  · rw [List.count_eq_one_of_mem (List.nodup_range _) (List.mem_range.2 hx)]
    obtain ⟨r0, hanc, hnone⟩ := exists_root_anc sorted hlt x
    have hr0x : r0 ≤ x := ancRel_le sorted hlt x r0 hanc
    have hr0n : r0 < sorted.length := by omega
    have hr0tree : r0 ∈ (buildPass sorted).tree := by
      rw [mem_tree_iff]
      exact ⟨hr0n, (hroot_iff r0 hr0n).1 hnone⟩
    unfold forestIdx
    rw [List.count_flatMap]
    refine sum_map_single _ r0 _ hr0tree (tree_nodup sorted) ?_ ?_
    · exact count_reachIdx_one sorted _ (fun j i => mem_childAcc_iff sorted j i)
        (childAcc_nodup sorted) hlt sorted.length x r0 hanc (by omega)
    · intro r' hr' hne
      have hr'n := (mem_tree_iff sorted r').1 hr'
      have hr'root : attachIdx sorted r' = none := (hroot_iff r' hr'n.1).2 hr'n.2
      refine count_reachIdx_zero sorted _
        (fun j i hi => ((mem_childAcc_iff sorted j i).1 hi).2) sorted.length x r' ?_
      intro habs
      exact hne (ancRel_root_unique sorted x r' r0 habs hr'root hanc hnone)
  · have hzero : List.count x (List.range sorted.length) = 0 := by
      rw [List.count_eq_zero, List.mem_range]
      omega
    rw [hzero, List.count_eq_zero]
    intro hmem
    unfold forestIdx at hmem
    obtain ⟨r, hrt, hy⟩ := List.mem_flatMap.1 hmem
    have := mem_reachIdx_lt sorted _
      (fun j i hi => ((mem_childAcc_iff sorted j i).1 hi).1) sorted.length r
      ((mem_tree_iff sorted r).1 hrt).1 x hy
    omega

theorem nodes_mkNode (sorted : List GitHubFile) (ca : Nat → List Nat)
    (hlt : ∀ j i, i ∈ ca j → j < i)
    (hltn : ∀ j i, i ∈ ca j → i < sorted.length) :
    ∀ fuel i, i < sorted.length → sorted.length ≤ fuel + i →
      ∀ nd ∈ nodesOf (mkNode sorted ca fuel i),
        ∃ f' k, k < sorted.length ∧ sorted.length ≤ f' + k ∧
          nd = mkNode sorted ca f' k := by
  intro fuel
  induction fuel with
  | zero =>
    intro i h1 h2
    omega
  | succ fuel ih =>
    intro i h1 h2 nd hnd
    by_cases hdir : (sorted.getD i dummyFile).type = .dir
    · have hmk : mkNode sorted ca (fuel + 1) i = FileTreeNode.mk
          (sorted.getD i dummyFile).name (sorted.getD i dummyFile).path
          (sorted.getD i dummyFile).type (sorted.getD i dummyFile).sha
          (sorted.getD i dummyFile).size (sorted.getD i dummyFile).downloadUrl
          (some ((ca i).map (fun c => mkNode sorted ca fuel c))) false := by
        rw [mkNode, if_pos hdir]
      rw [hmk] at hnd
      have hnodes : nodesOf (FileTreeNode.mk
          (sorted.getD i dummyFile).name (sorted.getD i dummyFile).path
          (sorted.getD i dummyFile).type (sorted.getD i dummyFile).sha
          (sorted.getD i dummyFile).size (sorted.getD i dummyFile).downloadUrl
          (some ((ca i).map (fun c => mkNode sorted ca fuel c))) false) =
          FileTreeNode.mk
            (sorted.getD i dummyFile).name (sorted.getD i dummyFile).path
            (sorted.getD i dummyFile).type (sorted.getD i dummyFile).sha
            (sorted.getD i dummyFile).size (sorted.getD i dummyFile).downloadUrl
            (some ((ca i).map (fun c => mkNode sorted ca fuel c))) false ::
            nodesList ((ca i).map (fun c => mkNode sorted ca fuel c)) := rfl
      rw [hnodes] at hnd
      rcases List.mem_cons.1 hnd with he | hm
      · exact ⟨fuel + 1, i, h1, h2, by rw [hmk, he]⟩
      · rw [nodesList_eq] at hm
        obtain ⟨nd', hnd', hmem⟩ := List.mem_flatMap.1 hm
        obtain ⟨c, hc, rfl⟩ := List.mem_map.1 hnd'
        have hic : i < c := hlt i c hc
        exact ih c (hltn i c hc) (by omega) nd hmem
    · have hmk : mkNode sorted ca (fuel + 1) i = FileTreeNode.mk
          (sorted.getD i dummyFile).name (sorted.getD i dummyFile).path
          (sorted.getD i dummyFile).type (sorted.getD i dummyFile).sha
          (sorted.getD i dummyFile).size (sorted.getD i dummyFile).downloadUrl
          none false := by
        rw [mkNode, if_neg hdir]
      rw [hmk] at hnd
      have : nd = FileTreeNode.mk
          (sorted.getD i dummyFile).name (sorted.getD i dummyFile).path
          (sorted.getD i dummyFile).type (sorted.getD i dummyFile).sha
          (sorted.getD i dummyFile).size (sorted.getD i dummyFile).downloadUrl
          none false := by
        simpa [nodesOf] using hnd
      exact ⟨fuel + 1, i, h1, h2, by rw [hmk, this]⟩

/-! Under the parent invariant — unique paths and, for every non-root entry,
a `dir` entry with the parent's path strictly earlier in the sorted order —
the attachment of the pass is fully characterized. -/

theorem attachIdx_lt_of_parents (sorted : List GitHubFile)
    (huniq : ∀ i j, i < sorted.length → j < sorted.length →
      (sorted.getD i dummyFile).path = (sorted.getD j dummyFile).path → i = j)
    (hpar : ∀ i, i < sorted.length → (sorted.getD i dummyFile).parentPath ≠ "" →
      ∃ j, j < i ∧
        (sorted.getD j dummyFile).path = (sorted.getD i dummyFile).parentPath ∧
        (sorted.getD j dummyFile).type = .dir) :
    ∀ i j, attachIdx sorted i = some j → j < i := by
  intro i j h
  obtain ⟨hroot, hle, hpath, hdir⟩ := attachIdx_eq_some sorted i j h
  have hi : i < sorted.length := by
    by_contra hgi
    rw [attachIdx_none_of_ge sorted i (by omega)] at h
    cases h
  have hpp : (sorted.getD i dummyFile).parentPath ≠ "" := fun he => hroot (Or.inl he)
  obtain ⟨j0, hj0i, hj0p, _⟩ := hpar i hi hpp
  have hjj0 : j = j0 := huniq j j0 (by omega) (by omega) (hpath.trans hj0p.symm)
  omega

theorem attachIdx_some_of_parents (sorted : List GitHubFile)
    (huniq : ∀ i j, i < sorted.length → j < sorted.length →
      (sorted.getD i dummyFile).path = (sorted.getD j dummyFile).path → i = j)
    (hpar : ∀ i, i < sorted.length → (sorted.getD i dummyFile).parentPath ≠ "" →
      ∃ j, j < i ∧
        (sorted.getD j dummyFile).path = (sorted.getD i dummyFile).parentPath ∧
        (sorted.getD j dummyFile).type = .dir) :
    ∀ i, i < sorted.length →
      ¬((sorted.getD i dummyFile).parentPath = "" ∨
        (sorted.getD i dummyFile).parentPath = "/") →
      ∃ j, attachIdx sorted i = some j ∧ j < i ∧
        (sorted.getD j dummyFile).path = (sorted.getD i dummyFile).parentPath ∧
        (sorted.getD j dummyFile).type = .dir := by
  intro i hi hroot
  have hpp : (sorted.getD i dummyFile).parentPath ≠ "" := fun he => hroot (Or.inl he)
  obtain ⟨j0, hj0i, hj0p, hj0d⟩ := hpar i hi hpp
  refine ⟨j0, ?_, hj0i, hj0p, hj0d⟩
  unfold attachIdx
  dsimp only
  rw [if_neg hroot]
  rw [lookupSpec_unique sorted ((sorted.getD i dummyFile).parentPath) j0 hj0p (i + 1)
    (by omega) (fun m hm hmp => huniq m j0 (by omega) (by omega) (hmp.trans hj0p.symm))]
  rw [hj0d]
  rfl

theorem attachIdx_none_iff_of_parents (sorted : List GitHubFile)
    (huniq : ∀ i j, i < sorted.length → j < sorted.length →
      (sorted.getD i dummyFile).path = (sorted.getD j dummyFile).path → i = j)
    (hpar : ∀ i, i < sorted.length → (sorted.getD i dummyFile).parentPath ≠ "" →
      ∃ j, j < i ∧
        (sorted.getD j dummyFile).path = (sorted.getD i dummyFile).parentPath ∧
        (sorted.getD j dummyFile).type = .dir) :
    ∀ i, i < sorted.length →
      (attachIdx sorted i = none ↔ isRootEntry (sorted.getD i dummyFile) = true) := by
  intro i hi
  constructor
  · intro h
    by_contra hro
    have hnroot : ¬((sorted.getD i dummyFile).parentPath = "" ∨
        (sorted.getD i dummyFile).parentPath = "/") :=
      fun hd => hro ((isRootEntry_true_iff _).2 hd)
    obtain ⟨j, hj, _⟩ := attachIdx_some_of_parents sorted huniq hpar i hi hnroot
    rw [h] at hj
    cases hj
  · intro h
    exact attachIdx_root sorted i ((isRootEntry_true_iff _).1 h)

/-- C1 (amended).  For every flat file list in which paths are unique and
none is empty or `"/"`, and every non-empty `parentPath` equals the path of
exactly one `dir` entry of the list and is a strict prefix of the entry's
own path (the spec's parent-prefix invariant), `buildFileTree` returns a
forest whose depth-first flattening is a permutation of the input paths,
and every node carrying a children array has as children exactly the
entries whose `parentPath` equals that node's path. -/
theorem claim_C1_amended (files : List GitHubFile)
    (hu : (files.map (fun f => f.path)).Nodup)
    (hne : ∀ f ∈ files, f.path ≠ "" ∧ f.path ≠ "/")
    (hpar : ∀ f ∈ files, f.parentPath ≠ "" →
      (files.filter (fun g => g.type == FileType.dir && g.path == f.parentPath)).length = 1 ∧
        strictPrefOf f.parentPath f.path) :
    (flattenForest (buildFileTree files)).Perm (files.map (fun f => f.path)) ∧
    ∀ nd ∈ forestNodes (buildFileTree files), ∀ cs, nd.children = some cs →
      (cs.map FileTreeNode.path).Perm
        ((files.filter (fun g => g.parentPath == nd.path)).map (fun f => f.path)) := by
  have hperm : (sortFiles files).Perm files :=
    List.mergeSort_perm files (fun a b => localeLe a.path b.path)
  have hnods : ((sortFiles files).map (fun f => f.path)).Nodup :=
    (List.Perm.nodup_iff (hperm.map (fun f => f.path))).2 hu
  have hsorted : (files.mergeSort (fun a b => localeLe a.path b.path)).Pairwise
      (fun a b => localeLe a.path b.path = true) :=
    List.sorted_mergeSort
      (fun a b c hab hbc => localeLe_trans a.path b.path c.path hab hbc)
      (fun a b => by
        rcases localeLe_total a.path b.path with h | h <;> simp [h])
      files
  have hsorted' : (sortFiles files).Pairwise
      (fun a b => localeLe a.path b.path = true) := hsorted
  have hpnodup : (sortFiles files).Pairwise (fun a b => a.path ≠ b.path) :=
    List.pairwise_map.mp hnods
  have hidx : ∀ i j, i < j → j < (sortFiles files).length →
      localeLe ((sortFiles files).getD i dummyFile).path
          ((sortFiles files).getD j dummyFile).path = true ∧
        ((sortFiles files).getD i dummyFile).path ≠
          ((sortFiles files).getD j dummyFile).path := by
    intro i j hij hj
    have hi : i < (sortFiles files).length := lt_trans hij hj
    rw [List.pairwise_iff_getElem] at hsorted' hpnodup
    rw [List.getD_eq_getElem _ dummyFile hi, List.getD_eq_getElem _ dummyFile hj]
    exact ⟨hsorted' i j hi hj hij, hpnodup i j hi hj hij⟩
  have huniq : ∀ i j, i < (sortFiles files).length → j < (sortFiles files).length →
      ((sortFiles files).getD i dummyFile).path =
        ((sortFiles files).getD j dummyFile).path → i = j := by
    intro i j hi hj hp
    rcases lt_trichotomy i j with h | h | h
    · exact absurd hp (hidx i j h hj).2
    · exact h
    · exact absurd hp.symm (hidx j i h hi).2
  have hmemidx : ∀ f ∈ sortFiles files, ∃ k, k < (sortFiles files).length ∧
      (sortFiles files).getD k dummyFile = f := by
    intro f hf
    obtain ⟨k, hk, hget⟩ := List.getElem_of_mem hf
    exact ⟨k, hk, by rw [List.getD_eq_getElem _ dummyFile hk, hget]⟩
  have hgetmem : ∀ i, i < (sortFiles files).length →
      (sortFiles files).getD i dummyFile ∈ files := by
    intro i hi
    refine hperm.mem_iff.1 ?_
    rw [List.getD_eq_getElem _ dummyFile hi]
    exact List.getElem_mem hi
  have hnei : ∀ i, i < (sortFiles files).length →
      ((sortFiles files).getD i dummyFile).path ≠ "" ∧
        ((sortFiles files).getD i dummyFile).path ≠ "/" := by
    intro i hi
    exact hne _ (hgetmem i hi)
  have hpari : ∀ i, i < (sortFiles files).length →
      ((sortFiles files).getD i dummyFile).parentPath ≠ "" →
      ∃ j, j < i ∧
        ((sortFiles files).getD j dummyFile).path =
          ((sortFiles files).getD i dummyFile).parentPath ∧
        ((sortFiles files).getD j dummyFile).type = .dir := by
    intro i hi hpp
    obtain ⟨hlen1, hspre⟩ := hpar _ (hgetmem i hi) hpp
    have hlen1' : ((sortFiles files).filter (fun g => g.type == FileType.dir &&
        g.path == ((sortFiles files).getD i dummyFile).parentPath)).length = 1 := by
      rw [(hperm.filter _).length_eq]
      exact hlen1
    have hpos : 0 < ((sortFiles files).filter (fun g => g.type == FileType.dir &&
        g.path == ((sortFiles files).getD i dummyFile).parentPath)).length := by
      omega
    obtain ⟨g, hg⟩ := List.exists_mem_of_length_pos hpos
    rw [List.mem_filter] at hg
    obtain ⟨hgmem, hgpred⟩ := hg
    simp only [Bool.and_eq_true, beq_iff_eq] at hgpred
    obtain ⟨j, hj, hgd⟩ := hmemidx g hgmem
    refine ⟨j, ?_, by rw [hgd]; exact hgpred.2, by rw [hgd]; exact hgpred.1⟩
    have hji : j ≠ i := by
      intro h
      subst h
      have hpe : ((sortFiles files).getD j dummyFile).path =
          ((sortFiles files).getD j dummyFile).parentPath := by
        conv_lhs => rw [hgd]
        exact hgpred.2
      exact strictPrefOf_ne _ _ hspre (hpe.symm)
    rcases Nat.lt_or_ge j i with h | h
    · exact h
    · exfalso
      have hij : i < j := by omega
      have h1 := (hidx i j hij hj).1
      have h2 := (hidx i j hij hj).2
      have h3 : localeLe ((sortFiles files).getD j dummyFile).path
          ((sortFiles files).getD i dummyFile).path = true := by
        rw [hgd, hgpred.2]
        exact strictPrefOf_localeLe _ _ hspre
      exact h2 (localeLe_antisymm _ _ h1 h3)
  have hlt := attachIdx_lt_of_parents (sortFiles files) huniq hpari
  have hrootiff := attachIdx_none_iff_of_parents (sortFiles files) huniq hpari
  have hpermforest : (forestIdx (sortFiles files)).Perm
      (List.range (sortFiles files).length) :=
    forestIdx_perm_range (sortFiles files) hlt hrootiff
  constructor
  · rw [flattenForest_eq]
    refine (hpermforest.map (fun j => ((sortFiles files).getD j dummyFile).path)).trans ?_
    have hmr : (List.range (sortFiles files).length).map
        (fun j => ((sortFiles files).getD j dummyFile).path) =
        (sortFiles files).map (fun f => f.path) :=
      map_range_getD dummyFile (fun f => f.path) (sortFiles files)
    rw [hmr]
    exact hperm.map (fun f => f.path)
  · intro nd hnd cs hcs
    unfold buildFileTree forestNodes at hnd
    dsimp only at hnd
    rw [nodesList_eq] at hnd
    obtain ⟨nd0, hnd0, hmemnd⟩ := List.mem_flatMap.1 hnd
    obtain ⟨r, hr, rfl⟩ := List.mem_map.1 hnd0
    have hrn := (mem_tree_iff (sortFiles files) r).1 hr
    obtain ⟨f', k, hk, hfk, rfl⟩ := nodes_mkNode (sortFiles files)
      (buildPass (sortFiles files)).childAcc
      (fun j i hi => hlt i j ((mem_childAcc_iff (sortFiles files) j i).1 hi).2)
      (fun j i hi => ((mem_childAcc_iff (sortFiles files) j i).1 hi).1)
      (sortFiles files).length r hrn.1 (by omega) _ hmemnd
    cases f' with
    | zero => omega
    | succ f'' =>
      rw [mkNode_children] at hcs
      by_cases hdir : ((sortFiles files).getD k dummyFile).type = .dir
      · rw [if_pos hdir, Option.some_inj] at hcs
        subst hcs
        rw [mkNode_path, List.map_map]
        have hcomp : ((buildPass (sortFiles files)).childAcc k).map
            (FileTreeNode.path ∘ fun c =>
              mkNode (sortFiles files) (buildPass (sortFiles files)).childAcc f'' c) =
            ((buildPass (sortFiles files)).childAcc k).map
              (fun c => ((sortFiles files).getD c dummyFile).path) := by
          refine List.map_congr_left ?_
          intro c _
          show (mkNode (sortFiles files) (buildPass (sortFiles files)).childAcc f'' c).path = _
          rw [mkNode_path]
        rw [hcomp]
        have hca : (buildPass (sortFiles files)).childAcc k =
            childUpTo (sortFiles files) (sortFiles files).length k := by
          rw [buildPass_eq]
        rw [hca]
        unfold childUpTo
        have hfc : (List.range (sortFiles files).length).filter
            (fun i => attachIdx (sortFiles files) i == some k) =
            (List.range (sortFiles files).length).filter
              (fun i => ((sortFiles files).getD i dummyFile).parentPath ==
                ((sortFiles files).getD k dummyFile).path) := by
          refine List.filter_congr ?_
          intro i hi
          rw [List.mem_range] at hi
          rw [Bool.eq_iff_iff]
          simp only [beq_iff_eq]
          constructor
          · intro h
            exact ((attachIdx_eq_some (sortFiles files) i k h).2.2.1).symm
          · intro h
            have hknei := hnei k hk
            have hroot : ¬(((sortFiles files).getD i dummyFile).parentPath = "" ∨
                ((sortFiles files).getD i dummyFile).parentPath = "/") := by
              rw [h]
              push_neg
              exact hknei
            obtain ⟨j, hj, hji, hjp, hjd⟩ :=
              attachIdx_some_of_parents (sortFiles files) huniq hpari i hi hroot
            have hjk : j = k := huniq j k (by omega) hk (by rw [hjp, h])
            rw [← hjk]
            exact hj
        rw [hfc]
        have hfm : ((List.range (sortFiles files).length).filter
            (fun i => ((sortFiles files).getD i dummyFile).parentPath ==
              ((sortFiles files).getD k dummyFile).path)).map
            (fun i => ((sortFiles files).getD i dummyFile).path) =
            ((sortFiles files).filter (fun g => g.parentPath ==
              ((sortFiles files).getD k dummyFile).path)).map (fun f => f.path) :=
          filter_map_range_getD dummyFile
            (fun g => g.parentPath == ((sortFiles files).getD k dummyFile).path)
            (fun f => f.path) (sortFiles files)
        rw [hfm]
        exact (hperm.filter _).map (fun f => f.path)
      · rw [if_neg hdir] at hcs
        cases hcs

/-- Input refuting C1 as stated: paths are unique and the non-empty
parent path `"b"` of the file `"a"` matches exactly one `dir` entry, yet
the file sorts before its parent, the parent lookup misses, and the entry
is dropped from the forest. -/
def files_cex : List GitHubFile :=
  [⟨"r", "a", "a", .file, "", none, none, none, "b", ""⟩,
   ⟨"r", "b", "b", .dir, "", none, none, none, "", ""⟩]

/-- C1 (counterexample).  The claim's invariant — unique paths, every
non-empty `parentPath` the path of exactly one `dir` entry — does not
suffice: without the spec's parent-prefix condition a child can sort
before its parent and be dropped, so the flattening of the forest is not
a permutation of the input paths. -/
theorem claim_C1_counterexample :
    ((files_cex.map (fun f => f.path)).Nodup ∧
      ∀ f ∈ files_cex, f.parentPath ≠ "" →
        (files_cex.filter
          (fun g => g.type == FileType.dir && g.path == f.parentPath)).length = 1) ∧
    ¬(flattenForest (buildFileTree files_cex)).Perm
      (files_cex.map (fun f => f.path)) := by
  refine ⟨⟨by decide, by decide⟩, ?_⟩
  have hs : sortFiles files_cex = files_cex :=
    List.mergeSort_of_sorted (by decide)
  rw [flattenForest_eq, hs]
  decide

/-- The spec's own example tree as a flat list: `src`, `src/a.ts`,
`src/utils`, `src/utils/b.ts`. -/
def files_spec_example : List GitHubFile :=
  [⟨"r", "src", "src", .dir, "", none, none, none, "", ""⟩,
   ⟨"r", "src/a.ts", "a.ts", .file, "", none, none, none, "src", ""⟩,
   ⟨"r", "src/utils", "utils", .dir, "", none, none, none, "src", ""⟩,
   ⟨"r", "src/utils/b.ts", "b.ts", .file, "", none, none, none, "src/utils", ""⟩]

/-- Witness for the amended C1 at the spec's example input. -/
theorem claim_C1_amended_witness :
    ((files_spec_example.map (fun f => f.path)).Nodup ∧
      (∀ f ∈ files_spec_example, f.path ≠ "" ∧ f.path ≠ "/") ∧
      (∀ f ∈ files_spec_example, f.parentPath ≠ "" →
        (files_spec_example.filter
          (fun g => g.type == FileType.dir && g.path == f.parentPath)).length = 1 ∧
          strictPrefOf f.parentPath f.path)) ∧
    ((flattenForest (buildFileTree files_spec_example)).Perm
        (files_spec_example.map (fun f => f.path)) ∧
      ∀ nd ∈ forestNodes (buildFileTree files_spec_example), ∀ cs,
        nd.children = some cs →
          (cs.map FileTreeNode.path).Perm
            ((files_spec_example.filter (fun g => g.parentPath == nd.path)).map
              (fun f => f.path))) :=
  ⟨⟨by decide, by decide, by decide⟩,
   claim_C1_amended files_spec_example (by decide) (by decide) (by decide)⟩

end AgenticSupport
